import Mathlib

/-
Shallow embedding of nelpy/auxiliary/_tuningcurve.py (classes TuningCurve1D and
DirectionalTuningCurve1D) and proofs about it.

Conventions of the embedding:
* numpy float arrays are modelled as lists of rationals (exact arithmetic);
* a unit-by-bin ratemap is a list of rows, one row per unit;
* mutable numpy arrays that are updated in a loop are modelled either by
  function update (the ratemap accumulator) or by List.set (row replacement);
* python exceptions become an Except monad with an explicit error taxonomy;
* warnings.warn calls are counted: methods that may warn return the number of
  warnings they emitted alongside their result;
* methods taking an inplace flag return a pair (self after the call, returned
  object), so that both the mutating and the copying behaviour are visible.
-/

namespace NelpyTC

/-- Python exception taxonomy used by _tuningcurve.py: ValueError (range
violation in _compute_ratemap), TypeError (bad operand / non-iterable numpy
scalar), NotImplementedError (unsupported construction or merge). -/
inductive PyError where
  | valueError (msg : String)
  | typeError (msg : String)
  | notImplementedError
  deriving DecidableEq, Repr

/-- Model of np.max over a 1-D array (maximum of the entries; the python code
only applies it to nonempty rows, the empty case is given the junk value 0). -/
def npMax : List ℚ → ℚ
  | [] => 0
  | h :: t => t.foldl max h

/-- Model of np.mean over a 1-D array (sum divided by length; division by the
length 0 of an empty list yields the junk value 0, as rationals divide by
zero to zero). -/
def npMean (l : List ℚ) : ℚ := l.sum / (l.length : ℚ)

/-- Model of np.max over the whole 2-D ratemap, used by the single-unit branch
of TuningCurve1D.normalize: the maximum over all entries, computed as the
maximum of the row maxima. -/
def npMax2 (m : List (List ℚ)) : ℚ := npMax (m.map npMax)

/-- Model of np.digitize(x, bins, right=True) for strictly increasing bins:
the insertion index of x keeping bins sorted, i.e. the number of bin edges
strictly below x (so x ≤ bins[0] gives 0 and x > bins[-1] gives len(bins)). -/
def digitizeRight (bins : List ℚ) (x : ℚ) : ℕ :=
  bins.countP (fun e => decide (e < x))

/-- Model of the bin selection of np.histogram(x, bins=edges) for increasing
edges: x lands in bin i when edges[i] ≤ x < edges[i+1], the last bin is closed
on the right, and out-of-range samples land in no bin (None). -/
def histBin (bins : List ℚ) (x : ℚ) : Option ℕ :=
  if bins.length < 2 then none
  else if x < bins.getD 0 0 ∨ bins.getD (bins.length - 1) 0 < x then none
  else some (min (bins.countP (fun e => decide (e ≤ x)) - 1) (bins.length - 2))

/-- TuningCurve1D._compute_occupancy: histogram the transformed correlate
values ext into the bin edges; the count of bin b is the number of samples
whose histogram bin is b (out-of-range samples are silently not counted). -/
def computeOccupancy (bins : List ℚ) (ext : List ℚ) : List ℕ :=
  (List.range (bins.length - 1)).map
    (fun b => (ext.filter (fun x => decide (histBin bins x = some b))).length)

/-- Column actually written by the accumulation line
ratemap[:, bidx-1] += data[:, tt] of _compute_ratemap: python index bidx-1,
where bidx = 0 wraps to the last column (numpy index -1). -/
def colIdx (nbins bidx : ℕ) : ℕ := if bidx = 0 then nbins - 1 else bidx - 1

/-- Entry (unit u, time tt) of the binned spike matrix, i.e. data[:, tt][u]. -/
def colData (data : List (List ℚ)) (tt u : ℕ) : ℚ := (data.getD u []).getD tt 0

/-- One accumulation step of _compute_ratemap: add the spike column of time tt
into ratemap column colIdx nbins bidx, for every unit. -/
def accumStep (nbins : ℕ) (data : List (List ℚ)) (rm : ℕ → ℕ → ℚ)
    (p : ℕ × ℕ) : ℕ → ℕ → ℚ :=
  fun u b => if b = colIdx nbins p.2 then rm u b + colData data p.1 u else rm u b

/-- TuningCurve1D._compute_ratemap: digitize each correlate sample with
right=True; if any digitized index is ≥ n_bins raise the ValueError
"decoded values outside of [extmin, extmax]"; otherwise accumulate each
time-bin spike column into ratemap column bidx-1 and divide by ds. -/
def computeRatemap (bins : List ℚ) (ext : List ℚ) (data : List (List ℚ))
    (ds : ℚ) : Except PyError (List (List ℚ)) :=
  let nbins := bins.length - 1
  let idx := ext.map (digitizeRight bins)
  if 0 < (idx.filter (fun i => decide (nbins ≤ i))).length then
    .error (.valueError "decoded values outside of [extmin, extmax]")
  else
    let idx2 := idx.filter (fun i => decide (i < nbins))
    let acc := idx2.enum.foldl (accumStep nbins data) (fun _ _ => 0)
    .ok ((List.range data.length).map
      (fun u => (List.range nbins).map (fun b => acc u b / ds)))

/-- TuningCurve1D._normalize_firing_rate_by_occupancy: tile the occupancy per
unit, replace zero occupancies by the divisor 1, and divide elementwise. -/
def normalizeByOccupancy (rm : List (List ℚ)) (occ : List ℕ) : List (List ℚ) :=
  let denomRow := occ.map (fun (o : ℕ) => if o = 0 then (1 : ℚ) else (o : ℚ))
  rm.map (fun row => List.zipWith (fun r d => r / d) row denomRow)

/-- Floor enforcement ratemap[ratemap < minbgrate] = minbgrate. -/
def floorRate (minbg : ℚ) (rm : List (List ℚ)) : List (List ℚ) :=
  rm.map (fun row => row.map (fun x => if x < minbg then minbg else x))

/-- Reflect boundary handling of scipy.ndimage.gaussian_filter (mode
'reflect': d c b a | a b c d | d c b a, periodic with period 2n), mapping an
integer coordinate onto an index in [0, n). -/
def reflectIdx (n : ℕ) (z : ℤ) : ℕ :=
  if (z % (2 * (n : ℤ))).toNat < n then (z % (2 * (n : ℤ))).toNat
  else 2 * n - 1 - (z % (2 * (n : ℤ))).toNat

/-- Model of the 1-D correlation of scipy.ndimage.gaussian_filter along the
bin axis: a finite nonnegative kernel w (the truncated Gaussian, normalised to
sum 1 by scipy) with centre index r, applied with reflect boundary mode. The
kernel weights are a parameter because the exact Gaussian weights are
transcendental; every claim proved about smoothing holds for every normalised
nonnegative kernel, hence for the Gaussian one. -/
def reflectConvolve (w : List ℚ) (r : ℕ) (row : List ℚ) : List ℚ :=
  (List.range row.length).map (fun (i : ℕ) =>
    ((List.range w.length).map (fun (k : ℕ) =>
      w.getD k 0 * row.getD (reflectIdx row.length ((i : ℤ) + k - r)) 0)).sum)

/-- Model of np.linspace(a, b, n+1): the n+1 equally spaced edges of n bins. -/
def linspace (a b : ℚ) (n : ℕ) : List ℚ :=
  (List.range (n + 1)).map (fun (i : ℕ) => a + (b - a) * (i : ℚ) / (n : ℚ))

/-- Opaque binned-spike-train provider (the bst argument): a unit-by-time
count matrix, the fixed bin duration ds, the time-bin centers, and the unit
metadata. -/
structure BST where
  data : List (List ℚ)
  ds : ℚ
  binCenters : List ℚ
  unit_ids : List ℕ
  unit_labels : List String
  deriving DecidableEq, Repr

/-- State of a TuningCurve1D after construction (the _bst and _extern
providers are detached by _detach, so they are not part of the state). The
None placeholders of the empty construction mode are modelled by empty
lists. -/
structure TC where
  ratemap : List (List ℚ)
  occupancy : List ℕ
  bins : List ℚ
  unit_ids : List ℕ
  unit_labels : List String
  deriving DecidableEq, Repr

/-- TuningCurve1D(empty=True): every attribute is a None placeholder. -/
def emptyTC : TC :=
  { ratemap := [], occupancy := [], bins := [], unit_ids := [], unit_labels := [] }

/-- Property TuningCurve1D.n_units: the length of unit_ids. -/
def TC.n_units (tc : TC) : ℕ := tc.unit_ids.length

/-- Property TuningCurve1D.n_bins: len(bins) - 1. -/
def TC.n_bins (tc : TC) : ℕ := tc.bins.length - 1

/-- Property TuningCurve1D.isempty: the ratemap has no rows (covers both the
None placeholder and a genuinely empty array). -/
def TC.isempty (tc : TC) : Bool := tc.ratemap.length == 0

/-- Shared ratemap pipeline of TuningCurve1D.__init__ (and of each of the
three passes of DirectionalTuningCurve1D.__init__): transform the time-bin
centers into correlate values, compute occupancy, compute the raw ratemap,
normalise by occupancy, enforce the minimum background rate, and optionally
smooth. Returns the occupancy together with the final ratemap. -/
def pipelineRatemap (bins : List ℚ) (bst : BST) (externF : ℚ → ℚ)
    (minbg : ℚ) (kernel : Option (List ℚ × ℕ)) :
    Except PyError (List ℕ × List (List ℚ)) :=
  let ext := bst.binCenters.map externF
  let occ := computeOccupancy bins ext
  match computeRatemap bins ext bst.data bst.ds with
  | .error e => .error e
  | .ok rm0 =>
    let rm1 := normalizeByOccupancy rm0 occ
    let rm2 := floorRate minbg rm1
    let rm3 := match kernel with
      | none => rm2
      | some k => rm2.map (reflectConvolve k.1 k.2)
    .ok (occ, rm3)

/-- TuningCurve1D.__init__ in the non-empty mode: requires n_ext (else
NotImplementedError), derives the bin edges by linspace, runs the ratemap
pipeline, and detaches the providers. The smoothing kernel parameter models
sigma: none corresponds to sigma=None or sigma=0 (no smoothing). -/
def tuningCurveInit (bst : BST) (externF : ℚ → ℚ) (n_ext : Option ℕ)
    (extmin extmax : ℚ) (minbgrate : Option ℚ)
    (kernel : Option (List ℚ × ℕ)) : Except PyError TC :=
  let minbg := minbgrate.getD (1 / 100)
  match n_ext with
  | none => .error .notImplementedError
  | some nx =>
    let bins := linspace extmin extmax nx
    match pipelineRatemap bins bst externF minbg kernel with
    | .error e => .error e
    | .ok (occ, rm) =>
      .ok { ratemap := rm, occupancy := occ, bins := bins,
            unit_ids := bst.unit_ids, unit_labels := bst.unit_labels }

/-- Core ratemap rescaling of TuningCurve1D.normalize: per-unit row maximum
when n_units > 1, the global array maximum otherwise. -/
def normalizeCore (tc : TC) : TC :=
  if 1 < tc.n_units then
    { tc with ratemap := tc.ratemap.map (fun row => row.map (fun x => x / npMax row)) }
  else
    { tc with ratemap := tc.ratemap.map (fun row => row.map (fun x => x / npMax2 tc.ratemap)) }

/-- TuningCurve1D.normalize with its inplace flag: returns (self after the
call, returned curve); inplace=False deep-copies so self is untouched. -/
def TC.normalize (tc : TC) (inplace : Bool) : TC × TC :=
  let out := normalizeCore tc
  if inplace then (out, out) else (tc, out)

/-- Operand of TuningCurve1D.__add__: a number, another curve, or anything
else (described by a string for the TypeError message). -/
inductive AddOperand where
  | num (q : ℚ)
  | curve (t : TC)
  | otherObj (descr : String)
  deriving DecidableEq, Repr

/-- TuningCurve1D.__add__: numbers are added elementwise to the ratemap of a
copy (self is never mutated, hence the pair (self, out)); adding another
TuningCurve1D raises NotImplementedError; any other operand raises
TypeError. -/
def tcAdd (tc : TC) (o : AddOperand) : Except PyError (TC × TC) :=
  match o with
  | .num q => .ok (tc, { tc with ratemap := tc.ratemap.map (fun row => row.map (fun x => x + q)) })
  | .curve _ => .error .notImplementedError
  | .otherObj d => .error (.typeError
      ("unsupported operand type(s) for +: TuningCurve1D and " ++ d))

/-- Python list.index wrapped in try/except ValueError: the first position of
x in l, or None when absent. -/
def pyIndexOpt : List ℕ → ℕ → Option ℕ
  | [], _ => none
  | a :: t, x => if a = x then some 0 else (pyIndexOpt t x).map (· + 1)

/-- TuningCurve1D._unit_subset: for each requested id, look up its position
(warning and skip when absent); when no position remains, warn once more and
return the empty curve; otherwise index unit_ids, unit_labels and the ratemap
rows by the collected positions. Returns (curve, number of warnings). -/
def unitSubset (tc : TC) (unitList : List ℕ) : TC × ℕ :=
  let idxs := unitList.filterMap (pyIndexOpt tc.unit_ids)
  let missing := (unitList.filter (fun u => decide (pyIndexOpt tc.unit_ids u = none))).length
  let newIds := idxs.map (fun i => tc.unit_ids.getD i 0)
  let newLabels := idxs.map (fun i => tc.unit_labels.getD i "")
  if idxs = [] then (emptyTC, missing + 1)
  else
    let newRatemap := idxs.map (fun i => tc.ratemap.getD i [])
    let newCurve :=
      { tc with unit_ids := newIds, unit_labels := newLabels, ratemap := newRatemap }
    (newCurve, missing)

/-- Model of utils.swap_rows / simultaneous python tuple swap: exchange the
entries at positions i and j (identity when either index is out of range). -/
def swapL (l : List α) (i j : ℕ) : List α :=
  match l[i]?, l[j]? with
  | some a, some b => (l.set i b).set j a
  | _, _ => l

/-- Swap loop of TuningCurve1D._reorder_units_by_idx, factored over one list:
for each target value ni of neworder, find its current position frm in the
oldorder bookkeeping list, swap positions frm and oi in both the data list
and oldorder, and advance oi. The source performs the identical swaps on
_ratemap, _unit_ids and _unit_labels inside one loop; since the swap
positions depend only on oldorder and neworder, applying this loop to each
list separately is the same computation. -/
def reorderSwapGo : List ℕ → ℕ → List ℕ → List α → List α
  | [], _, _, xs => xs
  | ni :: rest, oi, old, xs =>
    let frm := List.indexOf ni old
    reorderSwapGo rest (oi + 1) (swapL old frm oi) (swapL xs frm oi)

/-- TuningCurve1D._reorder_units_by_idx on one list: run the swap loop with
oldorder initialised to list(range(len(neworder))). -/
def reorderByIdx (neworder : List ℕ) (xs : List α) : List α :=
  reorderSwapGo neworder 0 (List.range neworder.length) xs

/-- TuningCurve1D._reorder_units_by_idx on the whole curve: permute the
ratemap rows, unit_ids and unit_labels with the same swap loop. -/
def TC.reorderUnitsByIdx (tc : TC) (neworder : List ℕ) : TC :=
  { tc with ratemap := reorderByIdx neworder tc.ratemap,
            unit_ids := reorderByIdx neworder tc.unit_ids,
            unit_labels := reorderByIdx neworder tc.unit_labels }

/-- Result of np.argwhere(cond).squeeze().tolist(): a python list of indices,
except that a single match squeezes to a 0-d array whose tolist() is a bare
scalar. -/
inductive SqOut where
  | scalar (n : ℕ)
  | idxList (l : List ℕ)
  deriving DecidableEq, Repr

/-- Model of np.argwhere(cond).squeeze().tolist() for a 1-D boolean array. -/
def argwhereSqueezeTolist (cond : List Bool) : SqOut :=
  let idxs := (cond.enum.filter (fun p => p.2)).map (fun p => p.1)
  match idxs with
  | [a] => .scalar a
  | l => .idxList l

/-- Model of set(np.asanyarray(ids)[v]): fancy indexing by a list of indices
followed by set() succeeds; a bare numpy integer scalar is not iterable, so
set() raises TypeError. The set is represented by its list of elements. -/
def setFancyIndex (ids : List ℕ) (s : SqOut) : Except PyError (List ℕ) :=
  match s with
  | .scalar _ => .error (.typeError "argument of type numpy.int64 is not iterable")
  | .idxList l => .ok (l.map (fun i => ids.getD i 0))

/-- DirectionalTuningCurve1D.restrict_units on a given ratemap: keep the units
whose row maximum exceeds min_peakfiringrate, intersect with the units whose
row mean is below max_avgfiringrate (both through the argwhere/squeeze/set
idiom), with the unimodal filter unimplemented. -/
def restrictUnits (ids : List ℕ) (rm : List (List ℚ))
    (minpeak maxavg : ℚ) (unimodal : Bool) : Except PyError (List ℕ) :=
  match setFancyIndex ids
      (argwhereSqueezeTolist (rm.map (fun row => decide (minpeak < npMax row)))) with
  | .error e => .error e
  | .ok s1 =>
    match setFancyIndex ids
        (argwhereSqueezeTolist (rm.map (fun row => decide (npMean row < maxavg)))) with
    | .error e => .error e
    | .ok s2 =>
      let kept := s1.filter (fun x => decide (x ∈ s2))
      if unimodal then .error .notImplementedError
      else .ok kept

/-- Row replacement loops of DirectionalTuningCurve1D.__init__: for each unit
id in uids, find its row position with unit_ids.index and overwrite that row
of rm with the corresponding row of src. -/
def replaceRows (ids : List ℕ) (rm src : List (List ℚ)) (uids : List ℕ) :
    List (List ℚ) :=
  uids.foldl (fun m uid =>
    let i := List.indexOf uid ids
    m.set i (src.getD i [])) rm

/-- State of a DirectionalTuningCurve1D after construction. -/
structure DTC where
  toTC : TC
  unit_ids_l2r : List ℕ
  unit_ids_r2l : List ℕ
  min_peakfiringrate : ℚ
  max_avgfiringrate : ℚ
  deriving DecidableEq, Repr

/-- DirectionalTuningCurve1D.__init__ in the non-empty mode: run the ratemap
pipeline for the left-to-right, right-to-left and combined providers (unit
identity is taken from the combined provider), restrict the units of the two
directional ratemaps, classify the retained ids into common and
direction-only sets, overwrite the combined rows of direction-only units with
the directional rows, and record the two direction-only id lists. Python
sets are represented by lists up to membership; intersection and difference
become membership filters. -/
def dirInit (bstL2R bstR2L bstC : BST) (externF : ℚ → ℚ)
    (n_ext : Option ℕ) (extmin extmax : ℚ)
    (minbgrate : Option ℚ) (kernel : Option (List ℚ × ℕ))
    (min_peakfiringrate max_avgfiringrate : Option ℚ) (unimodal : Bool) :
    Except PyError DTC :=
  let minpeak := min_peakfiringrate.getD (3 / 2)
  let maxavg := max_avgfiringrate.getD 10
  let minbg := minbgrate.getD (1 / 100)
  match n_ext with
  | none => .error .notImplementedError
  | some nx =>
    let bins := linspace extmin extmax nx
    let ids := bstC.unit_ids
    match pipelineRatemap bins bstL2R externF minbg kernel with
    | .error e => .error e
    | .ok (_, rmL) =>
      match pipelineRatemap bins bstR2L externF minbg kernel with
      | .error e => .error e
      | .ok (_, rmR) =>
        match pipelineRatemap bins bstC externF minbg kernel with
        | .error e => .error e
        | .ok (occC, rmC) =>
          match restrictUnits ids rmL minpeak maxavg unimodal with
          | .error e => .error e
          | .ok l2rIds =>
            match restrictUnits ids rmR minpeak maxavg unimodal with
            | .error e => .error e
            | .ok r2lIds =>
              let commonIds := r2lIds.filter (fun x => decide (x ∈ l2rIds))
              let l2rOnly := l2rIds.filter (fun x => decide (¬ x ∈ commonIds))
              let r2lOnly := r2lIds.filter (fun x => decide (¬ x ∈ commonIds))
              let rm1 := replaceRows ids rmC rmL l2rOnly
              let rm2 := replaceRows ids rm1 rmR r2lOnly
              .ok { toTC := { ratemap := rm2, occupancy := occC, bins := bins,
                              unit_ids := ids, unit_labels := bstC.unit_labels },
                    unit_ids_l2r := l2rOnly, unit_ids_r2l := r2lOnly,
                    min_peakfiringrate := minpeak, max_avgfiringrate := maxavg }

/-! Helper lemmas -/

/-- Evaluation of getD through map at an in-range index. -/
theorem getD_map_of_lt (f : α → β) (l : List α) (d : β) {n : ℕ}
    (h : n < l.length) (d' : α) : (l.map f).getD n d = f (l.getD n d') := by
  rw [List.getD_eq_getElem _ _ (by simpa using h), List.getD_eq_getElem _ _ h,
    List.getElem_map]

/-- Evaluation of getD through zipWith at an index in range of both lists. -/
theorem getD_zipWith_of_lt (f : α → β → γ) (l1 : List α) (l2 : List β) (d : γ)
    {n : ℕ} (h1 : n < l1.length) (h2 : n < l2.length) (d1 : α) (d2 : β) :
    (List.zipWith f l1 l2).getD n d = f (l1.getD n d1) (l2.getD n d2) := by
  rw [List.getD_eq_getElem _ _ (by simp only [List.length_zipWith]; omega),
    List.getElem_zipWith, List.getD_eq_getElem _ _ h1, List.getD_eq_getElem _ _ h2]

/-- Maximum commutes with division by a positive rational. -/
theorem max_div_pos (a b M : ℚ) (hM : 0 < M) :
    max (a / M) (b / M) = max a b / M := by
  rcases le_total a b with h | h
  · rw [max_eq_right h, max_eq_right ((div_le_div_iff_of_pos_right hM).mpr h)]
  · rw [max_eq_left h, max_eq_left ((div_le_div_iff_of_pos_right hM).mpr h)]

theorem foldl_max_div (M : ℚ) (hM : 0 < M) :
    ∀ (t : List ℚ) (h : ℚ),
      List.foldl max (h / M) (t.map (fun x => x / M)) = List.foldl max h t / M
  | [], _ => rfl
  | a :: t, h => by
    simp only [List.map_cons, List.foldl_cons]
    rw [max_div_pos h a M hM, foldl_max_div M hM t (max h a)]

/-- Model of the np.max of a row divided entrywise by a positive constant. -/
theorem npMax_map_div (l : List ℚ) (M : ℚ) (hM : 0 < M) :
    npMax (l.map (fun x => x / M)) = npMax l / M := by
  cases l with
  | nil => simp [npMax]
  | cons h t =>
    simp only [List.map_cons, npMax]
    exact foldl_max_div M hM t h

/-! Claim C4: occupancy normalization -/

/-- Claim C4: occupancy normalization divides every ratemap entry by the
occupancy of its bin (broadcast per bin across all units), except that a bin
with zero occupancy uses divisor 1, so the entry of a zero-occupancy bin is
left unchanged (in particular no NaN or Inf can arise: the result is again an
exact rational equal to the raw entry). -/
theorem c4_normalize_by_occupancy (rm : List (List ℚ)) (occ : List ℕ) (u b : ℕ)
    (hu : u < rm.length) (hb : b < (rm.getD u []).length) (hbo : b < occ.length) :
    ((normalizeByOccupancy rm occ).getD u []).getD b 0 =
      if occ.getD b 0 = 0 then (rm.getD u []).getD b 0
      else (rm.getD u []).getD b 0 / (occ.getD b 0 : ℚ) := by
  unfold normalizeByOccupancy
  rw [getD_map_of_lt _ rm [] hu []]
  rw [getD_zipWith_of_lt _ _ _ _ hb (by simpa using hbo) 0 1]
  rw [getD_map_of_lt _ occ _ hbo 0]
  by_cases hz : occ.getD b 0 = 0
  · rw [if_pos hz, if_pos hz, div_one]
  · rw [if_neg hz, if_neg hz]

/-- Witness for C4 at a concrete input: occupancy [2, 0], raw row [4, 6]; the
zero-occupancy bin 1 keeps its raw value 6, bin 0 is divided by 2. -/
theorem c4_normalize_by_occupancy_witness :
    (((normalizeByOccupancy [[4, 6]] [2, 0]).getD 0 []).getD 1 0 =
      if ([2, 0] : List ℕ).getD 1 0 = 0 then (([[4, 6]] : List (List ℚ)).getD 0 []).getD 1 0
      else (([[4, 6]] : List (List ℚ)).getD 0 []).getD 1 0 / ((([2, 0] : List ℕ).getD 1 0 : ℕ) : ℚ)) ∧
    ((normalizeByOccupancy [[4, 6]] [2, 0]).getD 0 []).getD 1 0 = 6 := by
  refine ⟨c4_normalize_by_occupancy [[4, 6]] [2, 0] 0 1 (by decide) (by decide) (by decide), ?_⟩
  with_unfolding_all rfl

/-! Claim C5: restrict_units retention rule (code bug at one qualifying unit) -/

/-- Claim C5 demonstration: with two units where exactly one unit qualifies
(row [2,2] has peak 2 > 1.5 and mean 2 < 10, row [1,1] fails the peak
threshold), restrict_units raises TypeError instead of returning the
singleton retained set: np.argwhere(...).squeeze().tolist() collapses a
single match to a bare scalar which set() cannot iterate. With zero
qualifying units the same code works and returns the empty set, so the claim
fails precisely at exactly one qualifying unit. -/
theorem c5_restrict_units_one_qualifying_unit_bug :
    restrictUnits [1, 2] [[2, 2], [1, 1]] (3 / 2) 10 false =
      .error (.typeError "argument of type numpy.int64 is not iterable") ∧
    ((3 : ℚ) / 2 < npMax [2, 2] ∧ npMean [2, 2] < 10) ∧
    ¬ ((3 : ℚ) / 2 < npMax [1, 1] ∧ npMean [1, 1] < 10) ∧
    restrictUnits [1, 2] [[1, 1], [1, 1]] (3 / 2) 10 false = .ok [] := by
  refine ⟨by with_unfolding_all rfl, by with_unfolding_all decide,
    by with_unfolding_all decide, by with_unfolding_all rfl⟩

/-! Claim C9: the + operator -/

/-- Concrete curve used to exhibit behaviour of the + operator. -/
def exCurve9 : TC :=
  { ratemap := [[1, 2]], occupancy := [1, 1], bins := [0, 1/2, 1],
    unit_ids := [7], unit_labels := ["u7"] }

/-- Counterexample to C9 as stated: adding two curves raises
NotImplementedError, which is not a TypeError (the TypeError branch of
__add__ is reserved for operands that are neither numbers nor curves). -/
theorem c9_counterexample_add_error_kind :
    tcAdd exCurve9 (AddOperand.curve exCurve9) = .error .notImplementedError ∧
    ¬ ∃ msg, tcAdd exCurve9 (AddOperand.curve exCurve9) = .error (.typeError msg) := by
  refine ⟨rfl, ?_⟩
  rintro ⟨msg, h⟩
  simp [tcAdd, exCurve9] at h

/-- Claim C9 amended: the + operator on two curves signals the
not-implemented error (never the type error, which is reserved for operands
that are neither numbers nor curves), whereas adding a scalar number returns
a new curve whose ratemap is the elementwise sum with all other fields
intact, leaving the original curve unchanged. -/
theorem c9_add_operator (tc : TC) (q : ℚ) (c : TC) (u b : ℕ)
    (hu : u < tc.ratemap.length) (hb : b < (tc.ratemap.getD u []).length) :
    tcAdd tc (AddOperand.curve c) = .error .notImplementedError ∧
    (∀ msg, tcAdd tc (AddOperand.curve c) ≠ .error (.typeError msg)) ∧
    ∃ p, tcAdd tc (AddOperand.num q) = .ok p ∧ p.1 = tc ∧
      p.2.occupancy = tc.occupancy ∧ p.2.bins = tc.bins ∧
      p.2.unit_ids = tc.unit_ids ∧ p.2.unit_labels = tc.unit_labels ∧
      p.2.ratemap.length = tc.ratemap.length ∧
      (p.2.ratemap.getD u []).getD b 0 = (tc.ratemap.getD u []).getD b 0 + q := by
  refine ⟨rfl, fun msg h => by simp [tcAdd] at h, ?_⟩
  refine ⟨_, rfl, rfl, rfl, rfl, rfl, rfl, by simp, ?_⟩
  show ((tc.ratemap.map fun row => row.map fun x => x + q).getD u []).getD b 0 = _
  rw [getD_map_of_lt _ tc.ratemap [] hu []]
  rw [getD_map_of_lt _ _ (0 : ℚ) hb 0]

/-- Witness for C9 at a concrete curve and scalar. -/
theorem c9_add_operator_witness :
    tcAdd exCurve9 (AddOperand.curve exCurve9) = .error .notImplementedError ∧
    (∀ msg, tcAdd exCurve9 (AddOperand.curve exCurve9) ≠ .error (.typeError msg)) ∧
    ∃ p, tcAdd exCurve9 (AddOperand.num 3) = .ok p ∧ p.1 = exCurve9 ∧
      p.2.occupancy = exCurve9.occupancy ∧ p.2.bins = exCurve9.bins ∧
      p.2.unit_ids = exCurve9.unit_ids ∧ p.2.unit_labels = exCurve9.unit_labels ∧
      p.2.ratemap.length = exCurve9.ratemap.length ∧
      (p.2.ratemap.getD 0 []).getD 1 0 = (exCurve9.ratemap.getD 0 []).getD 1 0 + 3 :=
  c9_add_operator exCurve9 3 exCurve9 0 1 (by decide) (by decide)

/-! Claim C6: normalize produces unit-peak rows -/

/-- Claim C6: for a curve whose units all have positive peak rate,
normalize() returns a curve in which every unit row has maximum exactly 1,
and with inplace=False the original curve is unchanged. -/
theorem c6_normalize_unit_peaks (tc : TC) (hW : tc.ratemap.length = tc.n_units)
    (hpos : ∀ row ∈ tc.ratemap, 0 < npMax row) :
    (TC.normalize tc false).1 = tc ∧
    ∀ row ∈ (TC.normalize tc false).2.ratemap, npMax row = 1 := by
  refine ⟨rfl, ?_⟩
  intro row hrow
  have hrow' : row ∈ (normalizeCore tc).ratemap := hrow
  unfold normalizeCore at hrow'
  by_cases h1 : 1 < tc.n_units
  · rw [if_pos h1] at hrow'
    simp only [List.mem_map] at hrow'
    obtain ⟨orig, ho, rfl⟩ := hrow'
    rw [npMax_map_div _ _ (hpos orig ho)]
    exact div_self (ne_of_gt (hpos orig ho))
  · rw [if_neg h1] at hrow'
    rcases hrm : tc.ratemap with _ | ⟨r, rest⟩
    · rw [hrm] at hrow'; simp at hrow'
    · have hlen : (r :: rest).length ≤ 1 := by
        rw [← hrm, hW]; omega
      have hrest : rest = [] := by
        cases rest with
        | nil => rfl
        | cons a t => simp at hlen
      subst hrest
      rw [hrm] at hrow'
      simp only [List.map_cons, List.map_nil, List.mem_singleton] at hrow'
      subst hrow'
      have hr : r ∈ tc.ratemap := by rw [hrm]; exact List.mem_singleton_self r
      have hM : npMax2 [r] = npMax r := rfl
      rw [hM, npMax_map_div _ _ (hpos r hr)]
      exact div_self (ne_of_gt (hpos r hr))

/-- Concrete two-unit curve with peaks 2 and 4 used as C6 witness input. -/
def exCurve6 : TC :=
  { ratemap := [[1, 2], [3, 4]], occupancy := [1, 1], bins := [0, 1/2, 1],
    unit_ids := [1, 2], unit_labels := ["a", "b"] }

/-- Witness for C6 at a concrete two-unit curve with peaks 2 and 4. -/
theorem c6_normalize_unit_peaks_witness :
    (TC.normalize exCurve6 false).1 = exCurve6 ∧
    ∀ row ∈ (TC.normalize exCurve6 false).2.ratemap, npMax row = 1 :=
  c6_normalize_unit_peaks exCurve6 (by decide) (by decide)

/-! Claim C3: construction invariants (bin count and rate floor) -/

/-- Model of np.linspace producing n+1 edges. -/
theorem linspace_length (a b : ℚ) (n : ℕ) : (linspace a b n).length = n + 1 := by
  simp [linspace]

/-- Indexing a list by the full range recovers the list sum. -/
theorem sum_getD_range : ∀ (l : List ℚ),
    ((List.range l.length).map (fun k => l.getD k 0)).sum = l.sum
  | [] => rfl
  | a :: t => by
    rw [List.length_cons, List.range_succ_eq_map, List.map_cons, List.sum_cons,
      List.map_map]
    have hc : ((fun k => (a :: t).getD k 0) ∘ Nat.succ) = fun k => t.getD k 0 := by
      funext k
      simp [List.getD_cons_succ]
    rw [hc, List.getD_cons_zero, sum_getD_range t, List.sum_cons]

/-- Reflect indexing always lands inside a nonempty array. -/
theorem reflectIdx_lt (n : ℕ) (hn : 0 < n) (z : ℤ) : reflectIdx n z < n := by
  unfold reflectIdx
  have h1 : 0 ≤ z % (2 * (n : ℤ)) := Int.emod_nonneg z (by positivity)
  have h2 : z % (2 * (n : ℤ)) < 2 * (n : ℤ) := Int.emod_lt_of_pos z (by positivity)
  by_cases hc : (z % (2 * (n : ℤ))).toNat < n
  · rw [if_pos hc]; exact hc
  · rw [if_neg hc]; omega

/-- Correlation against a nonnegative kernel of total weight 1 with reflect
boundary handling preserves a uniform lower bound. -/
theorem reflectConvolve_lower (w : List ℚ) (r : ℕ) (row : List ℚ) (c : ℚ)
    (hw : ∀ a ∈ w, 0 ≤ a) (hs : w.sum = 1) (hrow : ∀ x ∈ row, c ≤ x) :
    ∀ y ∈ reflectConvolve w r row, c ≤ y := by
  intro y hy
  unfold reflectConvolve at hy
  simp only [List.mem_map, List.mem_range] at hy
  obtain ⟨i, hi, rfl⟩ := hy
  have hn : 0 < row.length := lt_of_le_of_lt (Nat.zero_le i) hi
  calc c = c * w.sum := by rw [hs, mul_one]
    _ = c * ((List.range w.length).map (fun k => w.getD k 0)).sum := by
        rw [sum_getD_range]
    _ = ((List.range w.length).map (fun k => c * w.getD k 0)).sum := by
        rw [← List.sum_map_mul_left]
    _ ≤ _ := by
        apply List.sum_le_sum
        intro k hk
        rw [List.mem_range] at hk
        have h0w : 0 ≤ w.getD k 0 := by
          rw [List.getD_eq_getElem _ _ hk]
          exact hw _ (List.getElem_mem hk)
        have hlt := reflectIdx_lt row.length hn ((i : ℤ) + k - r)
        have hval : c ≤ row.getD (reflectIdx row.length ((i : ℤ) + k - r)) 0 := by
          rw [List.getD_eq_getElem _ _ hlt]
          exact hrow _ (List.getElem_mem hlt)
        calc c * w.getD k 0 = w.getD k 0 * c := mul_comm _ _
          _ ≤ w.getD k 0 * row.getD (reflectIdx row.length ((i : ℤ) + k - r)) 0 :=
              mul_le_mul_of_nonneg_left hval h0w

/-- Every entry of a floored ratemap is at least the floor. -/
theorem floorRate_le (minbg : ℚ) (rm : List (List ℚ)) :
    ∀ row ∈ floorRate minbg rm, ∀ x ∈ row, minbg ≤ x := by
  intro row hrow x hx
  unfold floorRate at hrow
  rw [List.mem_map] at hrow
  obtain ⟨orig, _, rfl⟩ := hrow
  rw [List.mem_map] at hx
  obtain ⟨y, _, rfl⟩ := hx
  by_cases h : y < minbg
  · simp only [if_pos h]
    exact le_refl minbg
  · simp only [if_neg h]
    exact le_of_not_lt h

/-- Every row of the pipeline output satisfies the background-rate floor,
for every normalised nonnegative smoothing kernel (or no smoothing). -/
theorem pipelineRatemap_floor (bins : List ℚ) (bst : BST) (externF : ℚ → ℚ)
    (minbg : ℚ) (kernel : Option (List ℚ × ℕ)) (occ : List ℕ) (rm : List (List ℚ))
    (hk : ∀ p, kernel = some p → (∀ a ∈ p.1, 0 ≤ a) ∧ p.1.sum = 1)
    (hp : pipelineRatemap bins bst externF minbg kernel = .ok (occ, rm)) :
    ∀ row ∈ rm, ∀ x ∈ row, minbg ≤ x := by
  simp only [pipelineRatemap] at hp
  cases hcr : computeRatemap bins (List.map externF bst.binCenters) bst.data bst.ds with
  | error e =>
    rw [hcr] at hp
    simp at hp
  | ok rm0 =>
    rw [hcr] at hp
    simp only [Except.ok.injEq, Prod.mk.injEq] at hp
    obtain ⟨-, hrm⟩ := hp
    cases kernel with
    | none =>
      simp only [] at hrm
      subst hrm
      exact floorRate_le minbg _
    | some k =>
      simp only [] at hrm
      subst hrm
      intro row hrow
      rw [List.mem_map] at hrow
      obtain ⟨orig, horig, rfl⟩ := hrow
      obtain ⟨hw, hs⟩ := hk k rfl
      exact reflectConvolve_lower k.1 k.2 orig minbg hw hs
        (floorRate_le minbg _ orig horig)

/-- Claim C3: for every valid (non-empty-mode) construction, n_bins equals
len(bins) - 1 (with len(bins) = n_ext + 1 from linspace), and every entry
of the resulting ratemap is at least minbgrate (default 1/100 Hz), including
when the optional smoothing (any normalised nonnegative kernel, hence in
particular the Gaussian one) is applied after the floor. -/
theorem c3_construction_invariants (bst : BST) (externF : ℚ → ℚ) (nx : ℕ)
    (extmin extmax : ℚ) (minbgrate : Option ℚ) (kernel : Option (List ℚ × ℕ))
    (tc : TC)
    (hk : ∀ p, kernel = some p → (∀ a ∈ p.1, 0 ≤ a) ∧ p.1.sum = 1)
    (hinit : tuningCurveInit bst externF (some nx) extmin extmax minbgrate kernel
      = .ok tc) :
    tc.n_bins = tc.bins.length - 1 ∧ tc.bins.length = nx + 1 ∧
    ∀ row ∈ tc.ratemap, ∀ x ∈ row, minbgrate.getD (1 / 100) ≤ x := by
  simp only [tuningCurveInit] at hinit
  cases hp : pipelineRatemap (linspace extmin extmax nx) bst externF
      (minbgrate.getD (1 / 100)) kernel with
  | error e =>
    rw [hp] at hinit
    simp at hinit
  | ok pr =>
    obtain ⟨occ, rm⟩ := pr
    rw [hp] at hinit
    simp only [Except.ok.injEq] at hinit
    subst hinit
    refine ⟨rfl, linspace_length extmin extmax nx, ?_⟩
    exact pipelineRatemap_floor _ bst externF _ kernel occ rm hk hp

/-- Concrete provider for the C3 witness: one unit, two time samples with
counts 5 and 7, correlate values 1/4 and 1/2, three bins on [0, 1]. -/
def exBST3 : BST :=
  { data := [[5, 7]], ds := 1, binCenters := [1/4, 1/2],
    unit_ids := [1], unit_labels := ["a"] }

/-- Result of the C3 witness construction (smoothed with the normalised
kernel [1/4, 1/2, 1/4]). -/
def exTC3 : TC :=
  { ratemap := [[11/2, 1901/400, 703/400]], occupancy := [1, 1, 0],
    bins := [0, 1/3, 2/3, 1], unit_ids := [1], unit_labels := ["a"] }

/-- Witness for C3: the concrete smoothed construction has n_bins =
len(bins) - 1 = 3 and every ratemap entry at least 1/100. -/
theorem c3_construction_invariants_witness :
    exTC3.n_bins = exTC3.bins.length - 1 ∧ exTC3.bins.length = 3 + 1 ∧
    ∀ row ∈ exTC3.ratemap, ∀ x ∈ row, (none : Option ℚ).getD (1 / 100) ≤ x :=
  c3_construction_invariants exBST3 id 3 0 1 none (some ([1/4, 1/2, 1/4], 1)) exTC3
    (by
      intro p hp
      cases hp
      exact ⟨by with_unfolding_all decide, by with_unfolding_all decide⟩)
    (by with_unfolding_all rfl)

/-! Claim C1: range rejection in ratemap vs silent exclusion in occupancy -/

/-- Indexing into a range list. -/
theorem getD_range (n k : ℕ) (h : k < n) : (List.range n).getD k 0 = k := by
  rw [List.getD_eq_getElem _ _ (by simpa using h), List.getElem_range]

/-- The last entry of a list via getLast? is a member. -/
theorem getLast?_some_mem {l : List ℚ} {m : ℚ} (h : l.getLast? = some m) :
    m ∈ l := by
  cases l with
  | nil => simp at h
  | cons a t =>
    have hne : (a :: t) ≠ [] := by simp
    rw [List.getLast?_eq_getLast _ hne] at h
    have hmem := List.getLast_mem hne
    rwa [Option.some.inj h] at hmem

/-- In a strictly sorted list every element is at most the last one. -/
theorem sorted_le_last : ∀ (l : List ℚ) (m : ℚ), l.Sorted (· < ·) →
    l.getLast? = some m → ∀ e ∈ l, e ≤ m
  | [], m, _, h => by simp at h
  | a :: t, m, hs, hlast => by
    intro e he
    cases t with
    | nil =>
      rw [List.getLast?_singleton] at hlast
      rw [List.mem_singleton] at he
      rw [he, Option.some.inj hlast]
    | cons b t2 =>
      rw [List.getLast?_cons_cons] at hlast
      rw [List.sorted_cons] at hs
      rcases List.mem_cons.mp he with rfl | he2
      · exact le_of_lt (hs.1 m (getLast?_some_mem hlast))
      · exact sorted_le_last (b :: t2) m hs.2 hlast e he2

/-- In a nonempty strictly sorted list every element is at least the head. -/
theorem sorted_head_le (l : List ℚ) (hs : l.Sorted (· < ·)) :
    ∀ e ∈ l, l.getD 0 0 ≤ e := by
  cases l with
  | nil => intro e he; simp at he
  | cons a t =>
    intro e he
    rw [List.sorted_cons] at hs
    rcases List.mem_cons.mp he with rfl | he2
    · exact le_refl e
    · exact le_of_lt (hs.1 e he2)

/-- A sample at or below the first edge digitizes (right=True) to index 0. -/
theorem digitizeRight_le_head (bins : List ℚ) (x : ℚ) (hs : bins.Sorted (· < ·))
    (hx : x ≤ bins.getD 0 0) : digitizeRight bins x = 0 := by
  unfold digitizeRight
  rw [List.countP_eq_zero]
  intro e he
  simp only [decide_eq_true_eq]
  exact not_lt.mpr (le_trans hx (sorted_head_le bins hs e he))

/-- Count of edges strictly below the last edge of a strictly sorted list. -/
theorem countP_lt_last : ∀ (bins : List ℚ) (m : ℚ), bins.Sorted (· < ·) →
    bins.getLast? = some m →
    bins.countP (fun e => decide (e < m)) = bins.length - 1
  | [], m, _, hlast => by simp at hlast
  | a :: t, m, hs, hlast => by
    cases t with
    | nil =>
      rw [List.getLast?_singleton] at hlast
      rw [← Option.some.inj hlast]
      simp [List.countP_cons]
    | cons b t2 =>
      rw [List.getLast?_cons_cons] at hlast
      rw [List.sorted_cons] at hs
      have ham : a < m := hs.1 m (getLast?_some_mem hlast)
      rw [List.countP_cons, countP_lt_last (b :: t2) m hs.2 hlast,
        if_pos (by simpa using ham)]
      simp

/-- A sample exactly at the last edge digitizes (right=True) to n_bins, the
threshold of the range-violation check. -/
theorem digitizeRight_last (bins : List ℚ) (m : ℚ) (hs : bins.Sorted (· < ·))
    (hlast : bins.getLast? = some m) :
    digitizeRight bins m = bins.length - 1 :=
  countP_lt_last bins m hs hlast

/-- A sample exactly at the last edge lands in the last histogram bin
(closed right boundary of np.histogram). -/
theorem histBin_last (bins : List ℚ) (m : ℚ) (hs : bins.Sorted (· < ·))
    (h2 : 2 ≤ bins.length) (hlast : bins.getLast? = some m) :
    histBin bins m = some (bins.length - 2) := by
  unfold histBin
  rw [if_neg (by omega)]
  have hne : bins ≠ [] := by
    cases bins with
    | nil => simp at h2
    | cons a t => simp
  have hlastD : bins.getD (bins.length - 1) 0 = m := by
    have h1 := List.getLast?_eq_getLast bins hne
    rw [hlast] at h1
    rw [List.getD_eq_getElem _ _ (by omega), ← List.getLast_eq_getElem bins hne]
    exact (Option.some.inj h1).symm
  have hhead : bins.getD 0 0 ≤ m := by
    apply sorted_le_last bins m hs hlast
    cases bins with
    | nil => simp at h2
    | cons a t => exact List.mem_cons_self a t
  rw [if_neg (by
    push_neg
    exact ⟨hhead, hlastD.ge⟩)]
  have hcount : bins.countP (fun e => decide (e ≤ m)) = bins.length := by
    rw [List.countP_eq_length]
    intro e he
    simpa using sorted_le_last bins m hs hlast e he
  rw [hcount]
  congr 1
  omega

/-- The ratemap computation raises the range ValueError as soon as one sample
digitizes at or beyond n_bins. -/
theorem computeRatemap_range_error (bins ext : List ℚ) (data : List (List ℚ))
    (ds x : ℚ) (hx : x ∈ ext) (hge : bins.length - 1 ≤ digitizeRight bins x) :
    computeRatemap bins ext data ds =
      .error (.valueError "decoded values outside of [extmin, extmax]") := by
  simp only [computeRatemap]
  rw [if_pos]
  rw [List.length_pos]
  have hmem : digitizeRight bins x ∈
      (ext.map (digitizeRight bins)).filter
        (fun i => decide (bins.length - 1 ≤ i)) := by
    rw [List.mem_filter]
    exact ⟨List.mem_map_of_mem _ hx, by simpa using hge⟩
  exact List.ne_nil_of_mem hmem

/-- Occupancy silently drops an out-of-range sample. -/
theorem computeOccupancy_drops_out_of_range (bins : List ℚ) (x : ℚ)
    (ext : List ℚ) (hx : histBin bins x = none) :
    computeOccupancy bins (x :: ext) = computeOccupancy bins ext := by
  unfold computeOccupancy
  refine List.map_congr_left (fun b _ => ?_)
  rw [List.filter_cons, if_neg (by simp [hx])]

/-- Occupancy counts a sample at the last edge into the last bin. -/
theorem computeOccupancy_counts_last_edge (bins : List ℚ) (m : ℚ)
    (ext : List ℚ) (hs : bins.Sorted (· < ·)) (h2 : 2 ≤ bins.length)
    (hlast : bins.getLast? = some m) :
    (computeOccupancy bins (m :: ext)).getD (bins.length - 2) 0 =
      (computeOccupancy bins ext).getD (bins.length - 2) 0 + 1 := by
  have hb := histBin_last bins m hs h2 hlast
  unfold computeOccupancy
  have hidx : bins.length - 2 < bins.length - 1 := by omega
  rw [getD_map_of_lt _ _ _ (by simpa using hidx) 0,
    getD_map_of_lt _ _ _ (by simpa using hidx) 0, getD_range _ _ hidx]
  rw [List.filter_cons, if_pos (by simp [hb])]
  simp

/-- Claim C1: any correlate sample digitizing at or beyond n_bins makes
_compute_ratemap raise the range ValueError, while _compute_occupancy
silently excludes out-of-range samples; in particular a sample exactly at
extmax (the last bin edge) is rejected by the ratemap computation yet counted
into the last bin of the occupancy histogram. -/
theorem c1_range_rejection_vs_occupancy :
    (∀ (bins ext : List ℚ) (data : List (List ℚ)) (ds x : ℚ), x ∈ ext →
      bins.length - 1 ≤ digitizeRight bins x →
      computeRatemap bins ext data ds =
        .error (.valueError "decoded values outside of [extmin, extmax]")) ∧
    (∀ (bins : List ℚ) (x : ℚ) (ext : List ℚ), histBin bins x = none →
      computeOccupancy bins (x :: ext) = computeOccupancy bins ext) ∧
    (∀ (bins : List ℚ) (m : ℚ) (ext : List ℚ) (data : List (List ℚ)) (ds : ℚ),
      bins.Sorted (· < ·) → 2 ≤ bins.length → bins.getLast? = some m → m ∈ ext →
      digitizeRight bins m = bins.length - 1 ∧
      computeRatemap bins ext data ds =
        .error (.valueError "decoded values outside of [extmin, extmax]") ∧
      histBin bins m = some (bins.length - 2) ∧
      ∀ rest : List ℚ,
        (computeOccupancy bins (m :: rest)).getD (bins.length - 2) 0 =
          (computeOccupancy bins rest).getD (bins.length - 2) 0 + 1) := by
  refine ⟨computeRatemap_range_error, computeOccupancy_drops_out_of_range, ?_⟩
  intro bins m ext data ds hs h2 hlast hm
  refine ⟨digitizeRight_last bins m hs hlast,
    computeRatemap_range_error bins ext data ds m hm
      (le_of_eq (digitizeRight_last bins m hs hlast).symm),
    histBin_last bins m hs h2 hlast,
    fun rest => computeOccupancy_counts_last_edge bins m rest hs h2 hlast⟩

/-- Witness for C1 with bins [0, 1/2, 1]: the sample 3/2 is out of range
(occupancy ignores it), and the sample exactly at extmax = 1 digitizes to
n_bins = 2, makes the ratemap computation fail, yet increments the last
occupancy bin. -/
theorem c1_range_rejection_vs_occupancy_witness :
    (computeRatemap [0, 1/2, 1] [1/4, 3/2] [[5, 7]] 1 =
      .error (.valueError "decoded values outside of [extmin, extmax]")) ∧
    (computeOccupancy [0, 1/2, 1] [3/2, 1/4] = computeOccupancy [0, 1/2, 1] [1/4]) ∧
    (digitizeRight [0, 1/2, 1] 1 = 2 ∧
      computeRatemap [0, 1/2, 1] [1/4, 1] [[5, 7]] 1 =
        .error (.valueError "decoded values outside of [extmin, extmax]") ∧
      histBin [0, 1/2, 1] 1 = some 1 ∧
      ∀ rest : List ℚ,
        (computeOccupancy [0, 1/2, 1] (1 :: rest)).getD 1 0 =
          (computeOccupancy [0, 1/2, 1] rest).getD 1 0 + 1) := by
  refine ⟨?_, ?_, ?_⟩
  · exact c1_range_rejection_vs_occupancy.1 [0, 1/2, 1] [1/4, 3/2] [[5, 7]] 1 (3/2)
      (by simp) (by with_unfolding_all decide)
  · exact c1_range_rejection_vs_occupancy.2.1 [0, 1/2, 1] (3/2) [1/4]
      (by with_unfolding_all decide)
  · exact c1_range_rejection_vs_occupancy.2.2 [0, 1/2, 1] 1 [1/4, 1] [[5, 7]] 1
      (by with_unfolding_all decide) (by decide) (by decide) (by simp)

/-! Claim C10: below-range samples accumulate into the last bin column -/

/-- Pointwise characterization of the accumulation loop of _compute_ratemap:
folding the per-time additions over an enumerated index list adds, for each
entry (u, b), the spike counts of exactly the time bins whose digitized index
is written to column b. -/
theorem accum_spec (nbins : ℕ) (data : List (List ℚ)) :
    ∀ (l : List ℕ) (k : ℕ) (f : ℕ → ℕ → ℚ) (u b : ℕ),
      (List.enumFrom k l).foldl (accumStep nbins data) f u b
        = f u b + ((List.enumFrom k l).map
            (fun p => if b = colIdx nbins p.2 then colData data p.1 u else 0)).sum
  | [], k, f, u, b => by simp
  | a :: l, k, f, u, b => by
    rw [List.enumFrom_cons, List.foldl_cons, List.map_cons, List.sum_cons,
      accum_spec nbins data l (k + 1) (accumStep nbins data f (k, a)) u b]
    unfold accumStep
    by_cases hb : b = colIdx nbins a
    · simp only [if_pos hb]
      ring
    · simp only [if_neg hb]
      ring

/-- When every sample digitizes strictly below n_bins, _compute_ratemap
succeeds and each entry is the accumulated per-column spike count divided by
ds. -/
theorem computeRatemap_ok (bins ext : List ℚ) (data : List (List ℚ)) (ds : ℚ)
    (h : ∀ x ∈ ext, digitizeRight bins x < bins.length - 1) :
    computeRatemap bins ext data ds =
      .ok ((List.range data.length).map (fun (u : ℕ) =>
        (List.range (bins.length - 1)).map (fun (b : ℕ) =>
          (((ext.map (digitizeRight bins)).enum.map
            (fun p => if b = colIdx (bins.length - 1) p.2
              then colData data p.1 u else 0)).sum) / ds))) := by
  simp only [computeRatemap]
  have hfe : (ext.map (digitizeRight bins)).filter
      (fun i => decide (bins.length - 1 ≤ i)) = [] := by
    rw [List.filter_eq_nil_iff]
    intro a ha
    rw [List.mem_map] at ha
    obtain ⟨x, hx, rfl⟩ := ha
    simpa using Nat.not_le.mpr (h x hx)
  have hfs : (ext.map (digitizeRight bins)).filter
      (fun i => decide (i < bins.length - 1)) = ext.map (digitizeRight bins) := by
    rw [List.filter_eq_self]
    intro a ha
    rw [List.mem_map] at ha
    obtain ⟨x, hx, rfl⟩ := ha
    simpa using h x hx
  rw [hfe, hfs]
  rw [if_neg (by simp)]
  congr 1
  refine List.map_congr_left (fun u _ => ?_)
  refine List.map_congr_left (fun b _ => ?_)
  congr 1
  rw [List.enum_eq_enumFrom, accum_spec]
  exact zero_add _

/-- Claim C10: a correlate sample at or below extmin digitizes to index 0, is
not rejected by the range check (which only fires at indices ≥ n_bins), and
its per-unit spike counts are accumulated into the LAST bin column, because
the accumulation writes to python index 0 - 1 = -1, i.e. column n_bins - 1. -/
theorem c10_below_range_wraps_to_last_column (bins ext : List ℚ)
    (data : List (List ℚ)) (ds : ℚ) (t u : ℕ)
    (hs : bins.Sorted (· < ·)) (h2 : 2 ≤ bins.length)
    (hall : ∀ x ∈ ext, digitizeRight bins x < bins.length - 1)
    (ht : t < ext.length) (hu : u < data.length)
    (hx : ext.getD t 0 ≤ bins.getD 0 0) :
    digitizeRight bins (ext.getD t 0) = 0 ∧
    0 < bins.length - 1 ∧
    colIdx (bins.length - 1) 0 = bins.length - 1 - 1 ∧
    ∃ rm, computeRatemap bins ext data ds = .ok rm ∧
      (rm.getD u []).getD (bins.length - 1 - 1) 0 =
        (((ext.map (digitizeRight bins)).enum.map
          (fun p => if bins.length - 1 - 1 = colIdx (bins.length - 1) p.2
            then colData data p.1 u else 0)).sum) / ds ∧
      ((ext.map (digitizeRight bins)).enum.map
          (fun p => if bins.length - 1 - 1 = colIdx (bins.length - 1) p.2
            then colData data p.1 u else 0)).getD t 0 = colData data t u := by
  have hd0 : digitizeRight bins (ext.getD t 0) = 0 :=
    digitizeRight_le_head bins _ hs hx
  refine ⟨hd0, by omega, by simp [colIdx], ?_⟩
  refine ⟨_, computeRatemap_ok bins ext data ds hall, ?_, ?_⟩
  · rw [getD_map_of_lt _ _ _ (by simpa using hu) 0, getD_range _ _ hu,
      getD_map_of_lt _ _ _ (by simpa using (by omega : bins.length - 1 - 1 < bins.length - 1)) 0,
      getD_range _ _ (by omega)]
  · have htl : t < ((ext.map (digitizeRight bins)).enum).length := by
      simp [List.enum_length, ht]
    rw [List.getD_eq_getElem _ _ (by simpa using htl), List.getElem_map,
      List.getElem_enum]
    have htm : t < (ext.map (digitizeRight bins)).length := by
      simpa using ht
    have hidx : (ext.map (digitizeRight bins))[t] = 0 := by
      rw [List.getElem_map]
      rw [← hd0]
      congr 1
      rw [List.getD_eq_getElem _ _ ht]
    simp only [hidx]
    rw [if_pos (by simp [colIdx])]

/-- Witness for C10: bins [0, 1/2, 1], samples [-1/4, 1/4]: the below-range
sample -1/4 digitizes to 0 and its count 5 lands in the last column (index 1)
of the single unit. -/
theorem c10_below_range_wraps_to_last_column_witness :
    digitizeRight [0, 1/2, 1] (([-1/4, 1/4] : List ℚ).getD 0 0) = 0 ∧
    0 < ([0, 1/2, 1] : List ℚ).length - 1 ∧
    colIdx (([0, 1/2, 1] : List ℚ).length - 1) 0 = ([0, 1/2, 1] : List ℚ).length - 1 - 1 ∧
    ∃ rm, computeRatemap [0, 1/2, 1] [-1/4, 1/4] [[5, 7]] 1 = .ok rm ∧
      (rm.getD 0 []).getD (([0, 1/2, 1] : List ℚ).length - 1 - 1) 0 =
        ((((([-1/4, 1/4] : List ℚ)).map (digitizeRight [0, 1/2, 1])).enum.map
          (fun p => if ([0, 1/2, 1] : List ℚ).length - 1 - 1 =
              colIdx (([0, 1/2, 1] : List ℚ).length - 1) p.2
            then colData [[5, 7]] p.1 0 else 0)).sum) / 1 ∧
      (((([-1/4, 1/4] : List ℚ)).map (digitizeRight [0, 1/2, 1])).enum.map
          (fun p => if ([0, 1/2, 1] : List ℚ).length - 1 - 1 =
              colIdx (([0, 1/2, 1] : List ℚ).length - 1) p.2
            then colData [[5, 7]] p.1 0 else 0)).getD 0 0 = colData [[5, 7]] 0 0 :=
  c10_below_range_wraps_to_last_column [0, 1/2, 1] [-1/4, 1/4] [[5, 7]] 1 0 0
    (by with_unfolding_all decide) (by decide) (by with_unfolding_all decide)
    (by decide) (by decide) (by with_unfolding_all decide)

/-! Claim C8: unit subsetting with warnings -/

/-- Python list.index fails (returns none) exactly on absent elements. -/
theorem pyIndexOpt_eq_none_iff : ∀ (l : List ℕ) (x : ℕ),
    pyIndexOpt l x = none ↔ ¬ x ∈ l
  | [], x => by simp [pyIndexOpt]
  | a :: t, x => by
    unfold pyIndexOpt
    by_cases hax : a = x
    · simp [hax]
    · simp only [if_neg hax, Option.map_eq_none', List.mem_cons]
      rw [pyIndexOpt_eq_none_iff t x]
      constructor
      · intro h hc
        rcases hc with rfl | hc
        · exact hax rfl
        · exact h hc
      · intro h hc
        exact h (Or.inr hc)

/-- Python list.index returns an in-range position holding the element. -/
theorem pyIndexOpt_eq_some : ∀ (l : List ℕ) (x i : ℕ),
    pyIndexOpt l x = some i → i < l.length ∧ l.getD i 0 = x
  | [], x, i, h => by simp [pyIndexOpt] at h
  | a :: t, x, i, h => by
    unfold pyIndexOpt at h
    by_cases hax : a = x
    · rw [if_pos hax] at h
      obtain rfl := Option.some.inj h
      exact ⟨by simp, hax⟩
    · rw [if_neg hax] at h
      rw [Option.map_eq_some'] at h
      obtain ⟨j, hj, rfl⟩ := h
      obtain ⟨hjl, hjd⟩ := pyIndexOpt_eq_some t x j hj
      exact ⟨by simpa using hjl, by simpa using hjd⟩

/-- The looked-up positions of a requested id list recover exactly the
requested ids that are present, in request order. -/
theorem subset_ids_eq (ids : List ℕ) : ∀ (ul : List ℕ),
    (ul.filterMap (pyIndexOpt ids)).map (fun i => ids.getD i 0) =
      ul.filter (fun u => decide (u ∈ ids))
  | [] => rfl
  | u :: ul => by
    rw [List.filterMap_cons, List.filter_cons]
    cases hpi : pyIndexOpt ids u with
    | none =>
      rw [if_neg (by simpa using (pyIndexOpt_eq_none_iff ids u).mp hpi)]
      exact subset_ids_eq ids ul
    | some i =>
      have hmem : u ∈ ids := by
        by_contra hc
        rw [← pyIndexOpt_eq_none_iff ids u] at hc
        rw [hpi] at hc
        cases hc
      rw [if_pos (by simpa using hmem), List.map_cons,
        (pyIndexOpt_eq_some ids u i hpi).2, subset_ids_eq ids ul]

/-- The empty-result condition matches absence of every requested id. -/
theorem subset_idxs_nil_iff (ids ul : List ℕ) :
    ul.filterMap (pyIndexOpt ids) = [] ↔
      ul.filter (fun u => decide (u ∈ ids)) = [] := by
  constructor
  · intro h
    rw [← subset_ids_eq ids ul, h]
    rfl
  · intro h
    have := subset_ids_eq ids ul
    rw [h, List.map_eq_nil_iff] at this
    exact this

/-- Warning count of _unit_subset: one warning per absent requested id, plus
one more when no requested id is present. -/
theorem unitSubset_warn_count (tc : TC) (ul : List ℕ) :
    (unitSubset tc ul).2 =
      (ul.filter (fun u => decide (¬ u ∈ tc.unit_ids))).length +
      (if ul.filter (fun u => decide (u ∈ tc.unit_ids)) = [] then 1 else 0) := by
  simp only [unitSubset]
  have hmiss : ul.filter (fun u => decide (pyIndexOpt tc.unit_ids u = none)) =
      ul.filter (fun u => decide (¬ u ∈ tc.unit_ids)) :=
    List.filter_congr (fun u _ =>
      decide_eq_decide.mpr (pyIndexOpt_eq_none_iff tc.unit_ids u))
  by_cases hnil : ul.filterMap (pyIndexOpt tc.unit_ids) = []
  · rw [if_pos hnil, if_pos ((subset_idxs_nil_iff tc.unit_ids ul).mp hnil)]
    simp [hmiss]
  · rw [if_neg hnil, if_neg (fun hc => hnil ((subset_idxs_nil_iff tc.unit_ids ul).mpr hc))]
    simp [hmiss]

/-- Retained unit ids of a nonempty _unit_subset result. -/
theorem unitSubset_ids (tc : TC) (ul : List ℕ)
    (hne : ¬ ul.filter (fun u => decide (u ∈ tc.unit_ids)) = []) :
    (unitSubset tc ul).1.unit_ids = ul.filter (fun u => decide (u ∈ tc.unit_ids)) := by
  simp only [unitSubset]
  rw [if_neg (fun hc => hne ((subset_idxs_nil_iff tc.unit_ids ul).mp hc))]
  exact subset_ids_eq tc.unit_ids ul

/-- Claim C8: subsetting a curve by a unit id list drops absent ids with one
warning each (never an error); requesting exactly one present and one absent
id warns once and yields a single-unit curve containing only the present id;
requesting only absent ids warns (once per id plus once for the empty
result) and returns the well-defined empty curve. -/
theorem c8_unit_subset_behaviour :
    (∀ (tc : TC) (ul : List ℕ),
      (unitSubset tc ul).2 =
        (ul.filter (fun u => decide (¬ u ∈ tc.unit_ids))).length +
        (if ul.filter (fun u => decide (u ∈ tc.unit_ids)) = [] then 1 else 0)) ∧
    (∀ (tc : TC) (ul : List ℕ), ¬ ul.filter (fun u => decide (u ∈ tc.unit_ids)) = [] →
      (unitSubset tc ul).1.unit_ids = ul.filter (fun u => decide (u ∈ tc.unit_ids))) ∧
    (∀ (tc : TC) (p a : ℕ), p ∈ tc.unit_ids → ¬ a ∈ tc.unit_ids →
      (unitSubset tc [p, a]).2 = 1 ∧
      (unitSubset tc [p, a]).1.unit_ids = [p] ∧
      (unitSubset tc [p, a]).1.n_units = 1) ∧
    (∀ (tc : TC) (ul : List ℕ), (∀ u ∈ ul, ¬ u ∈ tc.unit_ids) →
      unitSubset tc ul = (emptyTC, ul.length + 1) ∧ emptyTC.isempty = true) := by
  refine ⟨unitSubset_warn_count, unitSubset_ids, ?_, ?_⟩
  · intro tc p a hp ha
    have hfil : ([p, a].filter (fun u => decide (u ∈ tc.unit_ids))) = [p] := by
      rw [List.filter_cons, if_pos (by simpa using hp), List.filter_cons,
        if_neg (by simpa using ha)]
      rfl
    have hmfil : ([p, a].filter (fun u => decide (¬ u ∈ tc.unit_ids))) = [a] := by
      rw [List.filter_cons, if_neg (by simpa using hp), List.filter_cons,
        if_pos (by simpa using ha)]
      rfl
    have hids := unitSubset_ids tc [p, a] (by rw [hfil]; simp)
    rw [hfil] at hids
    refine ⟨?_, hids, ?_⟩
    · rw [unitSubset_warn_count tc [p, a], hfil, hmfil]
      simp
    · show (unitSubset tc [p, a]).1.unit_ids.length = 1
      rw [hids]
      rfl
  · intro tc ul hall
    have hfil : ul.filter (fun u => decide (u ∈ tc.unit_ids)) = [] := by
      rw [List.filter_eq_nil_iff]
      intro u hu
      simpa using hall u hu
    have hnil : ul.filterMap (pyIndexOpt tc.unit_ids) = [] :=
      (subset_idxs_nil_iff tc.unit_ids ul).mpr hfil
    have hmiss : ul.filter (fun u => decide (pyIndexOpt tc.unit_ids u = none)) = ul := by
      rw [List.filter_eq_self]
      intro u hu
      simpa [pyIndexOpt_eq_none_iff] using hall u hu
    constructor
    · simp only [unitSubset]
      rw [if_pos hnil, hmiss]
    · rfl

/-- Concrete curve for the C8 witness. -/
def exCurve8 : TC :=
  { ratemap := [[1, 2], [3, 4]], occupancy := [1, 1], bins := [0, 1/2, 1],
    unit_ids := [10, 20], unit_labels := ["a", "b"] }

/-- Witness for C8: requesting [20, 99] from a curve with ids [10, 20] warns
once and returns the single-unit curve for id 20; requesting [99] returns the
empty curve with two warnings. -/
theorem c8_unit_subset_behaviour_witness :
    ((unitSubset exCurve8 [20, 99]).2 = 1 ∧
      (unitSubset exCurve8 [20, 99]).1.unit_ids = [20] ∧
      (unitSubset exCurve8 [20, 99]).1.n_units = 1) ∧
    (unitSubset exCurve8 [99] = (emptyTC, [99].length + 1) ∧
      emptyTC.isempty = true) :=
  ⟨c8_unit_subset_behaviour.2.2.1 exCurve8 20 99 (by decide) (by decide),
   c8_unit_subset_behaviour.2.2.2 exCurve8 [99] (by decide)⟩

/-! Claim C2: directional reconciliation -/

/-- A non-scalar argwhere/squeeze result is exactly the list of indices of
the true entries. -/
theorem argwhere_eq (cond : List Bool) (l : List ℕ)
    (h : argwhereSqueezeTolist cond = .idxList l) :
    l = (cond.enum.filter (fun p => p.2)).map (fun p => p.1) := by
  unfold argwhereSqueezeTolist at h
  rcases hidx : (cond.enum.filter (fun p => p.2)).map (fun p => p.1) with _ | ⟨a, _ | ⟨b, t⟩⟩
  · rw [hidx] at h
    rw [hidx]
    exact (SqOut.idxList.inj h).symm
  · rw [hidx] at h
    cases h
  · rw [hidx] at h
    rw [hidx]
    exact (SqOut.idxList.inj h).symm

/-- The index list of a non-scalar argwhere/squeeze result is a sublist of
range, hence made of distinct in-range indices. -/
theorem argwhere_sublist (cond : List Bool) (l : List ℕ)
    (h : argwhereSqueezeTolist cond = .idxList l) :
    l.Sublist (List.range cond.length) := by
  rw [argwhere_eq cond l h]
  have h1 := List.Sublist.map (fun (p : ℕ × Bool) => p.1)
    (@List.filter_sublist (ℕ × Bool) (fun p => p.2) cond.enum)
  rwa [show cond.enum.map (fun (p : ℕ × Bool) => p.1) = List.range cond.length
    from List.enum_map_fst cond] at h1

/-- A successful fancy-index/set step on distinct in-range indices yields a
duplicate-free subset of the unit ids. -/
theorem setFancyIndex_ok (ids : List ℕ) (s : SqOut) (out : List ℕ) (n : ℕ)
    (hn : n = ids.length)
    (hok : setFancyIndex ids s = .ok out)
    (hsub : ∀ l, s = .idxList l → l.Sublist (List.range n)) :
    (∀ x ∈ out, x ∈ ids) ∧ (ids.Nodup → out.Nodup) := by
  cases s with
  | scalar a => cases hok
  | idxList l =>
    obtain rfl : l.map (fun i => ids.getD i 0) = out := Except.ok.inj hok
    have hls := hsub l rfl
    have hmem : ∀ i ∈ l, i < ids.length := by
      intro i hi
      have := List.Sublist.subset hls hi
      rw [List.mem_range] at this
      omega
    constructor
    · intro x hx
      rw [List.mem_map] at hx
      obtain ⟨i, hi, rfl⟩ := hx
      rw [List.getD_eq_getElem _ _ (hmem i hi)]
      exact List.getElem_mem _
    · intro hnd
      refine List.Nodup.map_on ?_ (List.Nodup.sublist hls (List.nodup_range n))
      intro i hi j hj hij
      rw [List.getD_eq_getElem _ _ (hmem i hi),
        List.getD_eq_getElem _ _ (hmem j hj)] at hij
      exact (List.Nodup.getElem_inj_iff hnd).mp hij

/-- A successful restrict_units call returns a duplicate-free subset of the
unit ids. -/
theorem restrictUnits_ok_facts (ids : List ℕ) (rm : List (List ℚ))
    (mp ma : ℚ) (L : List ℕ) (hlen : rm.length = ids.length)
    (hok : restrictUnits ids rm mp ma false = .ok L) :
    (∀ x ∈ L, x ∈ ids) ∧ (ids.Nodup → L.Nodup) := by
  simp only [restrictUnits] at hok
  cases hs1 : setFancyIndex ids
      (argwhereSqueezeTolist (rm.map (fun row => decide (mp < npMax row)))) with
  | error e => rw [hs1] at hok; cases hok
  | ok s1 =>
    rw [hs1] at hok
    cases hs2 : setFancyIndex ids
        (argwhereSqueezeTolist (rm.map (fun row => decide (npMean row < ma)))) with
    | error e => rw [hs2] at hok; cases hok
    | ok s2 =>
      rw [hs2] at hok
      simp only [Bool.false_eq_true, if_false, Except.ok.injEq] at hok
      have hf1 := setFancyIndex_ok ids _ s1 ids.length
        (by simp [hlen]) hs1
        (fun l hl => by
          have := argwhere_sublist _ l hl
          rwa [List.length_map, hlen] at this)
      subst hok
      constructor
      · intro x hx
        rw [List.mem_filter] at hx
        exact hf1.1 x hx.1
      · intro hnd
        exact List.Nodup.filter _ (hf1.2 hnd)

/-- Row replacement preserves the number of rows. -/
theorem replaceRows_length (ids : List ℕ) (src : List (List ℚ)) :
    ∀ (uids : List ℕ) (rm : List (List ℚ)),
      (replaceRows ids rm src uids).length = rm.length
  | [], rm => rfl
  | uid :: rest, rm => by
    unfold replaceRows
    rw [List.foldl_cons]
    have := replaceRows_length ids src rest
      (rm.set (List.indexOf uid ids) (src.getD (List.indexOf uid ids) []))
    unfold replaceRows at this
    rw [this, List.length_set]

/-- Evaluation of getD through set at an in-range index. -/
theorem getD_set_of_lt (rm : List α) (j : ℕ) (v : α) (i : ℕ) (d : α)
    (hi : i < rm.length) :
    (rm.set j v).getD i d = if j = i then v else rm.getD i d := by
  rw [List.getD_eq_getElem _ _ (by simpa using hi), List.getElem_set]
  by_cases h : j = i
  · rw [if_pos h, if_pos h]
  · rw [if_neg h, if_neg h, List.getD_eq_getElem _ _ hi]

/-- Row characterization of the replacement loops of
DirectionalTuningCurve1D.__init__: a row is overwritten by the source row at
the same position exactly when its unit id is in the replacement list. -/
theorem replaceRows_getD (ids : List ℕ) (src : List (List ℚ)) :
    ∀ (uids : List ℕ) (rm : List (List ℚ)),
      ids.Nodup → (∀ x ∈ uids, x ∈ ids) → rm.length = ids.length →
      ∀ i, i < ids.length →
      (replaceRows ids rm src uids).getD i [] =
        if ids.getD i 0 ∈ uids then src.getD i [] else rm.getD i []
  | [], rm, _, _, _, i, hi => by
    simp [replaceRows]
  | uid :: rest, rm, hnd, hmem, hlen, i, hi => by
    unfold replaceRows
    rw [List.foldl_cons]
    have huid : uid ∈ ids := hmem uid (List.mem_cons_self uid rest)
    have hj : List.indexOf uid ids < ids.length := List.indexOf_lt_length.mpr huid
    have hjval : ids.getD (List.indexOf uid ids) 0 = uid := by
      rw [List.getD_eq_getElem _ _ hj]
      exact List.getElem_indexOf hj
    have hrec := replaceRows_getD ids src rest
      (rm.set (List.indexOf uid ids) (src.getD (List.indexOf uid ids) []))
      hnd (fun x hx => hmem x (List.mem_cons.mpr (Or.inr hx)))
      (by rw [List.length_set, hlen]) i hi
    unfold replaceRows at hrec
    rw [hrec]
    by_cases hin : ids.getD i 0 ∈ rest
    · rw [if_pos hin, if_pos (List.mem_cons.mpr (Or.inr hin))]
    · rw [if_neg hin]
      by_cases heq : ids.getD i 0 = uid
      · rw [if_pos (List.mem_cons.mpr (Or.inl heq))]
        have hij : List.indexOf uid ids = i := by
          have h1 : ids.getD i 0 = ids.getD (List.indexOf uid ids) 0 := by
            rw [hjval, heq]
          rw [List.getD_eq_getElem _ _ hi, List.getD_eq_getElem _ _ hj] at h1
          exact ((List.Nodup.getElem_inj_iff hnd).mp h1).symm
        rw [getD_set_of_lt _ _ _ _ _ (by rw [hlen]; exact hi), if_pos hij, hij]
      · rw [if_neg (by
          intro hc
          rcases List.mem_cons.mp hc with h | h
          · exact heq h
          · exact hin h)]
        have hij : ¬ List.indexOf uid ids = i := by
          intro hc
          rw [hc] at hjval
          exact heq hjval
        rw [getD_set_of_lt _ _ _ _ _ (by rw [hlen]; exact hi), if_neg hij]

/-- Claim C2: in a DirectionalTuningCurve1D construction, a unit retained
only in the left-to-right pass has its row replaced by the left-to-right
ratemap (symmetrically for right-to-left-only units); units retained in both
passes or in neither keep the combined row; and unit_ids_l2r (resp.
unit_ids_r2l) holds exactly the left-to-right-only (right-to-left-only) unit
ids. The retained sets Ll and Lr are those computed by restrict_units on the
directional ratemaps. -/
theorem c2_directional_merge (bstL2R bstR2L bstC : BST) (externF : ℚ → ℚ)
    (nx : ℕ) (extmin extmax : ℚ) (minbgrate : Option ℚ)
    (kernel : Option (List ℚ × ℕ)) (mp ma : Option ℚ) (dtc : DTC)
    (oL oR oC : List ℕ) (rmL rmR rmC : List (List ℚ)) (Ll Lr : List ℕ)
    (hNodup : bstC.unit_ids.Nodup)
    (hL : pipelineRatemap (linspace extmin extmax nx) bstL2R externF
      (minbgrate.getD (1 / 100)) kernel = .ok (oL, rmL))
    (hR : pipelineRatemap (linspace extmin extmax nx) bstR2L externF
      (minbgrate.getD (1 / 100)) kernel = .ok (oR, rmR))
    (hC : pipelineRatemap (linspace extmin extmax nx) bstC externF
      (minbgrate.getD (1 / 100)) kernel = .ok (oC, rmC))
    (hLl : restrictUnits bstC.unit_ids rmL (mp.getD (3 / 2)) (ma.getD 10) false
      = .ok Ll)
    (hLr : restrictUnits bstC.unit_ids rmR (mp.getD (3 / 2)) (ma.getD 10) false
      = .ok Lr)
    (hlenL : rmL.length = bstC.unit_ids.length)
    (hlenR : rmR.length = bstC.unit_ids.length)
    (hlenC : rmC.length = bstC.unit_ids.length)
    (hd : dirInit bstL2R bstR2L bstC externF (some nx) extmin extmax minbgrate
      kernel mp ma false = .ok dtc) :
    (∀ x, x ∈ dtc.unit_ids_l2r ↔ x ∈ Ll ∧ ¬ x ∈ Lr) ∧
    (∀ x, x ∈ dtc.unit_ids_r2l ↔ x ∈ Lr ∧ ¬ x ∈ Ll) ∧
    ∀ i, i < bstC.unit_ids.length →
      ((bstC.unit_ids.getD i 0 ∈ Ll ∧ ¬ bstC.unit_ids.getD i 0 ∈ Lr →
          dtc.toTC.ratemap.getD i [] = rmL.getD i []) ∧
       (bstC.unit_ids.getD i 0 ∈ Lr ∧ ¬ bstC.unit_ids.getD i 0 ∈ Ll →
          dtc.toTC.ratemap.getD i [] = rmR.getD i []) ∧
       ((bstC.unit_ids.getD i 0 ∈ Ll ↔ bstC.unit_ids.getD i 0 ∈ Lr) →
          dtc.toTC.ratemap.getD i [] = rmC.getD i [])) := by
  simp only [dirInit, hL, hR, hC] at hd
  simp only [hLl, hLr] at hd
  simp only [Except.ok.injEq] at hd
  subst hd
  have hcommon : ∀ x, x ∈ Lr.filter (fun x => decide (x ∈ Ll)) ↔
      x ∈ Lr ∧ x ∈ Ll := by
    intro x
    rw [List.mem_filter]
    simp
  have hl2rOnly : ∀ x, x ∈ Ll.filter
      (fun x => decide (¬ x ∈ Lr.filter (fun y => decide (y ∈ Ll)))) ↔
      x ∈ Ll ∧ ¬ x ∈ Lr := by
    intro x
    rw [List.mem_filter]
    constructor
    · rintro ⟨hx, hnc⟩
      refine ⟨hx, fun hr => ?_⟩
      rw [decide_eq_true_eq] at hnc
      exact hnc ((hcommon x).mpr ⟨hr, hx⟩)
    · rintro ⟨hx, hnr⟩
      refine ⟨hx, ?_⟩
      rw [decide_eq_true_eq]
      intro hc
      exact hnr ((hcommon x).mp hc).1
  have hr2lOnly : ∀ x, x ∈ Lr.filter
      (fun x => decide (¬ x ∈ Lr.filter (fun y => decide (y ∈ Ll)))) ↔
      x ∈ Lr ∧ ¬ x ∈ Ll := by
    intro x
    rw [List.mem_filter]
    constructor
    · rintro ⟨hx, hnc⟩
      refine ⟨hx, fun hl => ?_⟩
      rw [decide_eq_true_eq] at hnc
      exact hnc ((hcommon x).mpr ⟨hx, hl⟩)
    · rintro ⟨hx, hnl⟩
      refine ⟨hx, ?_⟩
      rw [decide_eq_true_eq]
      intro hc
      exact hnl ((hcommon x).mp hc).2
  obtain ⟨hLlsub, hLlnd⟩ := restrictUnits_ok_facts _ rmL _ _ Ll hlenL hLl
  obtain ⟨hLrsub, hLrnd⟩ := restrictUnits_ok_facts _ rmR _ _ Lr hlenR hLr
  refine ⟨hl2rOnly, hr2lOnly, ?_⟩
  intro i hi
  set v := bstC.unit_ids.getD i 0 with hv
  have houter := replaceRows_getD bstC.unit_ids rmR
    (Lr.filter (fun x => decide (¬ x ∈ Lr.filter (fun y => decide (y ∈ Ll)))))
    (replaceRows bstC.unit_ids rmC rmL
      (Ll.filter (fun x => decide (¬ x ∈ Lr.filter (fun y => decide (y ∈ Ll))))))
    hNodup
    (fun x hx => hLrsub x (List.mem_filter.mp hx).1)
    (by rw [replaceRows_length, hlenC])
    i hi
  have hinner := replaceRows_getD bstC.unit_ids rmL
    (Ll.filter (fun x => decide (¬ x ∈ Lr.filter (fun y => decide (y ∈ Ll)))))
    rmC hNodup
    (fun x hx => hLlsub x (List.mem_filter.mp hx).1)
    hlenC i hi
  refine ⟨?_, ?_, ?_⟩
  · rintro ⟨hvl, hvr⟩
    rw [houter, if_neg (fun hc => hvr ((hr2lOnly v).mp hc).1), hinner,
      if_pos ((hl2rOnly v).mpr ⟨hvl, hvr⟩)]
  · rintro ⟨hvr, hvl⟩
    rw [houter, if_pos ((hr2lOnly v).mpr ⟨hvr, hvl⟩)]
  · intro hiff
    by_cases hvl : v ∈ Ll
    · have hvr : v ∈ Lr := hiff.mp hvl
      rw [houter, if_neg (fun hc => ((hr2lOnly v).mp hc).2 hvl), hinner,
        if_neg (fun hc => ((hl2rOnly v).mp hc).2 hvr)]
    · have hvr : ¬ v ∈ Lr := fun hc => hvl (hiff.mpr hc)
      rw [houter, if_neg (fun hc => hvr ((hr2lOnly v).mp hc).1), hinner,
        if_neg (fun hc => hvl ((hl2rOnly v).mp hc).1)]

/-- Left-to-right provider for the C2 witness (4 units, 2 time samples). -/
def exBSTl2r : BST :=
  { data := [[2, 2], [3, 1], [1, 0], [1, 1]], ds := 1, binCenters := [1/4, 1/2],
    unit_ids := [1, 2, 3, 4], unit_labels := ["a", "b", "c", "d"] }

/-- Right-to-left provider for the C2 witness. -/
def exBSTr2l : BST :=
  { data := [[60, 40], [4, 2], [1, 1], [2, 2]], ds := 1, binCenters := [1/4, 1/2],
    unit_ids := [1, 2, 3, 4], unit_labels := ["a", "b", "c", "d"] }

/-- Combined provider for the C2 witness. -/
def exBSTcomb : BST :=
  { data := [[1, 1], [2, 2], [1, 1], [1, 1]], ds := 1, binCenters := [1/4, 1/2],
    unit_ids := [1, 2, 3, 4], unit_labels := ["a", "b", "c", "d"] }

/-- Left-to-right ratemap of the C2 witness: units 1 and 2 are retained
(peak above 1.5 Hz, mean below 10 Hz). -/
def exRmL : List (List ℚ) :=
  [[2, 2, 1/100], [3, 1, 1/100], [1, 1/100, 1/100], [1, 1, 1/100]]

/-- Right-to-left ratemap of the C2 witness: units 2 and 4 are retained
(unit 1 has peak 60 but mean 100.01/3 above 10 Hz). -/
def exRmR : List (List ℚ) :=
  [[60, 40, 1/100], [4, 2, 1/100], [1, 1, 1/100], [2, 2, 1/100]]

/-- Combined ratemap of the C2 witness. -/
def exRmC : List (List ℚ) :=
  [[1, 1, 1/100], [2, 2, 1/100], [1, 1, 1/100], [1, 1, 1/100]]

/-- Directional curve produced by the C2 witness construction: unit 1 takes
the left-to-right row, unit 4 the right-to-left row, units 2 and 3 keep the
combined rows. -/
def exDTC : DTC :=
  { toTC := { ratemap := [[2, 2, 1/100], [2, 2, 1/100], [1, 1, 1/100], [2, 2, 1/100]],
              occupancy := [1, 1, 0], bins := [0, 1/3, 2/3, 1],
              unit_ids := [1, 2, 3, 4], unit_labels := ["a", "b", "c", "d"] },
    unit_ids_l2r := [1], unit_ids_r2l := [4],
    min_peakfiringrate := 3/2, max_avgfiringrate := 10 }

/-- Witness for C2: in the concrete scenario, unit 1 (left-to-right only) has
its row replaced by the left-to-right estimate, unit 4 (right-to-left only)
by the right-to-left estimate, units 2 (both) and 3 (neither) keep the
combined rows, and the directional id lists contain exactly units 1 and 4. -/
theorem c2_directional_merge_witness :
    (1 ∈ exDTC.unit_ids_l2r ↔ 1 ∈ [1, 2] ∧ ¬ 1 ∈ [2, 4]) ∧
    (4 ∈ exDTC.unit_ids_r2l ↔ 4 ∈ [2, 4] ∧ ¬ 4 ∈ [1, 2]) ∧
    exDTC.toTC.ratemap.getD 0 [] = exRmL.getD 0 [] ∧
    exDTC.toTC.ratemap.getD 3 [] = exRmR.getD 3 [] ∧
    exDTC.toTC.ratemap.getD 1 [] = exRmC.getD 1 [] ∧
    exDTC.toTC.ratemap.getD 2 [] = exRmC.getD 2 [] := by
  have h := c2_directional_merge exBSTl2r exBSTr2l exBSTcomb id 3 0 1 none none
    none none exDTC [1, 1, 0] [1, 1, 0] [1, 1, 0] exRmL exRmR exRmC [1, 2] [2, 4]
    (by decide)
    (by with_unfolding_all rfl) (by with_unfolding_all rfl)
    (by with_unfolding_all rfl)
    (by with_unfolding_all rfl) (by with_unfolding_all rfl)
    (by decide) (by decide) (by decide)
    (by with_unfolding_all rfl)
  exact ⟨h.1 1, h.2.1 4,
    (h.2.2 0 (by decide)).1 (by decide),
    (h.2.2 3 (by decide)).2.1 (by decide),
    (h.2.2 1 (by decide)).2.2 (by decide),
    (h.2.2 2 (by decide)).2.2 (by decide)⟩

/-! Claim C7: reordering units -/

/-- Index action of a position swap: j and i are exchanged, everything else
is fixed. -/
def idxSwap (i j k : ℕ) : ℕ := if k = j then i else if k = i then j else k

theorem idxSwap_invol (i j k : ℕ) : idxSwap i j (idxSwap i j k) = k := by
  unfold idxSwap
  split_ifs <;> omega

theorem idxSwap_inj (i j k1 k2 : ℕ) (h : idxSwap i j k1 = idxSwap i j k2) :
    k1 = k2 := by
  have h2 := congrArg (idxSwap i j) h
  rwa [idxSwap_invol, idxSwap_invol] at h2

theorem idxSwap_lt (i j k n : ℕ) (hi : i < n) (hj : j < n) (hk : k < n) :
    idxSwap i j k < n := by
  unfold idxSwap
  split_ifs <;> omega

theorem length_swapL (l : List α) (i j : ℕ) : (swapL l i j).length = l.length := by
  unfold swapL
  cases h1 : l[i]? <;> cases h2 : l[j]? <;> simp [List.length_set]

/-- Entry characterization of a position swap with in-range indices. -/
theorem getD_swapL (l : List α) (i j k : ℕ) (hi : i < l.length)
    (hj : j < l.length) (hk : k < l.length) (d : α) :
    (swapL l i j).getD k d = l.getD (idxSwap i j k) d := by
  have hk2 : k < ((l.set i l[j]).set j l[i]).length := by
    simpa [List.length_set] using hk
  have hmain : (swapL l i j).getD k d =
      if j = k then l[i] else if i = k then l[j] else l[k] := by
    unfold swapL
    rw [List.getElem?_eq_getElem hi, List.getElem?_eq_getElem hj]
    rw [List.getD_eq_getElem _ _ hk2, List.getElem_set, List.getElem_set]
  rw [hmain]
  unfold idxSwap
  by_cases h1 : k = j
  · rw [if_pos h1.symm, if_pos h1, List.getD_eq_getElem _ _ hi]
  · rw [if_neg (fun hc => h1 hc.symm), if_neg h1]
    by_cases h2 : k = i
    · rw [if_pos h2.symm, if_pos h2, List.getD_eq_getElem _ _ hj]
    · rw [if_neg (fun hc => h2 hc.symm), if_neg h2, List.getD_eq_getElem _ _ hk]

/-- Mapping commutes with a position swap. -/
theorem swapL_map (f : α → β) (l : List α) (i j : ℕ) :
    (swapL l i j).map f = swapL (l.map f) i j := by
  unfold swapL
  cases h1 : l[i]? with
  | none =>
    have h1m : (l.map f)[i]? = none := by rw [List.getElem?_map, h1]; rfl
    rw [h1m]
  | some a =>
    have h1m : (l.map f)[i]? = some (f a) := by rw [List.getElem?_map, h1]; rfl
    rw [h1m]
    cases h2 : l[j]? with
    | none =>
      have h2m : (l.map f)[j]? = none := by rw [List.getElem?_map, h2]; rfl
      rw [h2m]
    | some b =>
      have h2m : (l.map f)[j]? = some (f b) := by rw [List.getElem?_map, h2]; rfl
      rw [h2m]
      rw [List.map_set, List.map_set]

/-- A position swap with in-range indices preserves freedom from
duplicates. -/
theorem nodup_swapL (l : List ℕ) (i j : ℕ) (hi : i < l.length)
    (hj : j < l.length) (hnd : l.Nodup) : (swapL l i j).Nodup := by
  rw [List.nodup_iff_injective_get] at hnd ⊢
  intro k1 k2 hk
  have hlsw := length_swapL l i j
  have hl1 : (k1 : ℕ) < l.length := by
    have := k1.2
    omega
  have hl2 : (k2 : ℕ) < l.length := by
    have := k2.2
    omega
  rw [List.get_eq_getElem, List.get_eq_getElem,
    ← List.getD_eq_getElem _ 0 k1.2, ← List.getD_eq_getElem _ 0 k2.2,
    getD_swapL l i j _ hi hj hl1 0, getD_swapL l i j _ hi hj hl2 0] at hk
  have hs1 := idxSwap_lt i j k1 l.length hi hj hl1
  have hs2 := idxSwap_lt i j k2 l.length hi hj hl2
  rw [List.getD_eq_getElem _ _ hs1, List.getD_eq_getElem _ _ hs2] at hk
  have := @hnd ⟨idxSwap i j k1, hs1⟩ ⟨idxSwap i j k2, hs2⟩
    (by simpa [List.get_eq_getElem] using hk)
  have hsw : idxSwap i j (k1 : ℕ) = idxSwap i j (k2 : ℕ) := congrArg Fin.val this
  exact Fin.ext (idxSwap_inj i j _ _ hsw)

/-- Membership in a dropped suffix through positions. -/
theorem mem_drop_iff_getD (l : List ℕ) (k : ℕ) (x : ℕ) :
    x ∈ l.drop k ↔ ∃ p, k + p < l.length ∧ l.getD (k + p) 0 = x := by
  constructor
  · intro h
    rw [List.mem_iff_getElem] at h
    obtain ⟨p, hp, he⟩ := h
    have hlen : k + p < l.length := by
      have := hp
      rw [List.length_drop] at this
      omega
    refine ⟨p, hlen, ?_⟩
    rw [List.getD_eq_getElem _ _ hlen]
    rw [List.getElem_drop l] at he
    exact he
  · rintro ⟨p, hp, he⟩
    rw [List.mem_iff_getElem]
    refine ⟨p, by rw [List.length_drop]; omega, ?_⟩
    rw [List.getElem_drop l]
    rw [List.getD_eq_getElem _ _ hp] at he
    exact he

/-- Correctness of the selection-placement swap loop on the oldorder
bookkeeping list itself: processing the remaining targets w from write
position oi turns old into its unchanged prefix followed by w. -/
theorem reorderSwapGo_old : ∀ (w : List ℕ) (oi : ℕ) (old : List ℕ),
    old.Nodup → w.Nodup → (∀ x ∈ w, x ∈ old.drop oi) →
    oi + w.length = old.length →
    reorderSwapGo w oi old old = old.take oi ++ w
  | [], oi, old, _, _, _, hlen => by
    unfold reorderSwapGo
    have hoi : oi = old.length := by simpa using hlen
    rw [hoi, List.take_length, List.append_nil]
  | ni :: rest, oi, old, hndOld, hndW, hmem, hlen => by
    unfold reorderSwapGo
    have hniDrop : ni ∈ old.drop oi := hmem ni (List.mem_cons_self ni rest)
    have hniMem : ni ∈ old := List.mem_of_mem_drop hniDrop
    have hfrmLt : List.indexOf ni old < old.length :=
      List.indexOf_lt_length.mpr hniMem
    have hfrmVal : old.getD (List.indexOf ni old) 0 = ni := by
      rw [List.getD_eq_getElem _ _ hfrmLt]
      exact List.getElem_indexOf hfrmLt
    have hoiLt : oi < old.length := by
      rw [List.length_cons] at hlen
      omega
    have hniNotTake : ¬ ni ∈ old.take oi := by
      intro hc
      have hsplit := hndOld
      rw [← List.take_append_drop oi old] at hsplit
      exact (List.nodup_append.mp hsplit).2.2 hc hniDrop
    have hfrmGe : oi ≤ List.indexOf ni old := by
      by_contra hc
      push_neg at hc
      apply hniNotTake
      rw [List.mem_iff_getElem]
      refine ⟨List.indexOf ni old, by rw [List.length_take]; omega, ?_⟩
      rw [List.getElem_take]
      exact List.getElem_indexOf hfrmLt
    have hndRest := (List.nodup_cons.mp hndW).2
    have hniRest := (List.nodup_cons.mp hndW).1
    have hlen1 := length_swapL old (List.indexOf ni old) oi
    have hnd1 : (swapL old (List.indexOf ni old) oi).Nodup :=
      nodup_swapL old _ oi hfrmLt hoiLt hndOld
    have hmem1 : ∀ x ∈ rest, x ∈ (swapL old (List.indexOf ni old) oi).drop (oi + 1) := by
      intro x hx
      have hxOld : x ∈ old.drop oi := hmem x (List.mem_cons_of_mem ni hx)
      rw [mem_drop_iff_getD] at hxOld
      obtain ⟨p, hp, hval⟩ := hxOld
      have hxni : ¬ x = ni := fun hc => hniRest (hc ▸ hx)
      rw [mem_drop_iff_getD]
      by_cases hpo : oi + p = List.indexOf ni old
      · exfalso
        apply hxni
        rw [← hval, hpo, hfrmVal]
      · by_cases hpz : p = 0
        · subst hpz
          refine ⟨List.indexOf ni old - (oi + 1), ?_, ?_⟩
          · omega
          · have heq : oi + 1 + (List.indexOf ni old - (oi + 1)) = List.indexOf ni old := by
              omega
            rw [heq, getD_swapL old _ oi _ hfrmLt hoiLt hfrmLt 0]
            unfold idxSwap
            rw [if_neg (by omega), if_pos rfl]
            simpa using hval
        · refine ⟨p - 1, by omega, ?_⟩
          have heq : oi + 1 + (p - 1) = oi + p := by omega
          rw [heq, getD_swapL old _ oi _ hfrmLt hoiLt (by omega) 0]
          unfold idxSwap
          rw [if_neg (by omega), if_neg (by omega)]
          exact hval
    have hlen2 : (oi + 1) + rest.length = (swapL old (List.indexOf ni old) oi).length := by
      rw [hlen1]
      rw [List.length_cons] at hlen
      omega
    rw [reorderSwapGo_old rest (oi + 1) _ hnd1 hndRest hmem1 hlen2]
    have htake : (swapL old (List.indexOf ni old) oi).take (oi + 1) =
        old.take oi ++ [ni] := by
      apply List.ext_getElem
      · rw [List.length_take, List.length_append, List.length_take]
        simp only [List.length_singleton]
        omega
      · intro k h1 h2
        rw [List.length_take] at h1
        have hk : k < oi + 1 := by omega
        have hkl : k < old.length := by omega
        rw [List.getElem_take]
        rw [List.getElem_append]
        by_cases hko : k < oi
        · rw [dif_pos (by rw [List.length_take]; omega)]
          rw [List.getElem_take]
          have := getD_swapL old (List.indexOf ni old) oi k hfrmLt hoiLt hkl 0
          rw [List.getD_eq_getElem _ _ (by omega : k < (swapL old (List.indexOf ni old) oi).length)] at this
          rw [this]
          unfold idxSwap
          rw [if_neg (by omega), if_neg (by omega), List.getD_eq_getElem _ _ hkl]
        · have hko2 : k = oi := by omega
          rw [dif_neg (by rw [List.length_take]; omega)]
          have hidx : k - (List.take oi old).length = 0 := by
            rw [List.length_take]
            omega
          simp only [hidx, List.getElem_cons_zero]
          have hthis := getD_swapL old (List.indexOf ni old) oi k hfrmLt hoiLt hkl 0
          rw [List.getD_eq_getElem _ _ (by omega : k < (swapL old (List.indexOf ni old) oi).length)] at hthis
          rw [hthis]
          unfold idxSwap
          rw [if_pos (by omega)]
          exact hfrmVal
    rw [htake, List.append_assoc, List.singleton_append]

/-- The swap loop acts on a mapped copy of the bookkeeping list exactly as
on the bookkeeping list itself. -/
theorem reorderSwapGo_map (f : ℕ → α) : ∀ (w : List ℕ) (oi : ℕ) (old : List ℕ),
    reorderSwapGo w oi old (old.map f) = (reorderSwapGo w oi old old).map f
  | [], _, _ => rfl
  | ni :: rest, oi, old => by
    simp only [reorderSwapGo]
    rw [← swapL_map f old (List.indexOf ni old) oi]
    exact reorderSwapGo_map f rest (oi + 1) (swapL old (List.indexOf ni old) oi)

/-- Reading a list back through its full index range. -/
theorem map_getD_range : ∀ (l : List α) (d : α),
    (List.range l.length).map (fun k => l.getD k d) = l
  | [], _ => rfl
  | a :: t, d => by
    rw [List.length_cons, List.range_succ_eq_map, List.map_cons, List.map_map]
    have hc : ((fun k => (a :: t).getD k d) ∘ Nat.succ) = fun k => t.getD k d := by
      funext k
      simp [List.getD_cons_succ]
    rw [hc, List.getD_cons_zero, map_getD_range t d]

/-- Reordering by a permutation of the positions places row neworder[i] of
the original list at position i. -/
theorem reorderByIdx_eq_map [Inhabited α] (w : List ℕ) (xs : List α) (n : ℕ)
    (hn : xs.length = n) (hw : w.Perm (List.range n)) :
    reorderByIdx w xs = w.map (fun k => xs.getD k default) := by
  have hwlen : w.length = n := by rw [hw.length_eq, List.length_range]
  unfold reorderByIdx
  have hxs : xs = (List.range w.length).map (fun k => xs.getD k default) := by
    rw [hwlen, ← hn, map_getD_range]
  conv_lhs => rw [hxs]
  rw [reorderSwapGo_map (fun k => xs.getD k default) w 0 (List.range w.length)]
  rw [reorderSwapGo_old w 0 (List.range w.length) (List.nodup_range _)
    (hw.nodup_iff.mpr (List.nodup_range _))
    (by
      intro x hx
      rw [List.drop_zero, List.mem_range]
      have := hw.subset hx
      rw [List.mem_range] at this
      omega)
    (by rw [List.length_range]; omega)]
  rw [List.take_zero, List.nil_append]

/-- Reordering by a permutation and then by its inverse restores the list. -/
theorem reorder_roundtrip_list [Inhabited α] (w winv : List ℕ) (n : ℕ)
    (xs : List α) (hn : xs.length = n) (hw : w.Perm (List.range n))
    (hwi : winv.Perm (List.range n))
    (hinv : ∀ i, i < n → w.getD (winv.getD i 0) 0 = i) :
    reorderByIdx winv (reorderByIdx w xs) = xs := by
  have hwlen : w.length = n := by rw [hw.length_eq, List.length_range]
  have hwilen : winv.length = n := by rw [hwi.length_eq, List.length_range]
  rw [reorderByIdx_eq_map w xs n hn hw]
  rw [reorderByIdx_eq_map winv _ n (by rw [List.length_map, hwlen]) hwi]
  apply List.ext_getElem
  · rw [List.length_map, hwilen, hn]
  · intro j h1 h2
    have hj : j < winv.length := by simpa using h1
    have hjn : j < n := by omega
    rw [List.getElem_map]
    have hkj : winv[j] < n := by
      have hmem : winv[j] ∈ winv := List.getElem_mem hj
      have := hwi.subset hmem
      rwa [List.mem_range] at this
    rw [getD_map_of_lt _ w _ (by omega : winv[j] < w.length) 0]
    have hival := hinv j hjn
    rw [List.getD_eq_getElem _ _ hj] at hival
    rw [hival, List.getD_eq_getElem _ _ h2]

/-- Claim C7: a single reordering permutes unit_ids, unit_labels and the
ratemap rows in lockstep (entry i of each becomes the original entry
neworder[i]), and reordering by a permutation and then by its inverse
restores the original curve exactly. -/
theorem c7_reorder_units_roundtrip (tc : TC) (w winv : List ℕ) (n : ℕ)
    (hids : tc.unit_ids.length = n) (hlabels : tc.unit_labels.length = n)
    (hrm : tc.ratemap.length = n)
    (hw : w.Perm (List.range n)) (hwi : winv.Perm (List.range n))
    (hinv : ∀ i, i < n → w.getD (winv.getD i 0) 0 = i) :
    ((TC.reorderUnitsByIdx tc w).unit_ids =
        w.map (fun k => tc.unit_ids.getD k 0) ∧
      (TC.reorderUnitsByIdx tc w).unit_labels =
        w.map (fun k => tc.unit_labels.getD k "") ∧
      (TC.reorderUnitsByIdx tc w).ratemap =
        w.map (fun k => tc.ratemap.getD k [])) ∧
    TC.reorderUnitsByIdx (TC.reorderUnitsByIdx tc w) winv = tc := by
  constructor
  · exact ⟨reorderByIdx_eq_map w tc.unit_ids n hids hw,
      reorderByIdx_eq_map w tc.unit_labels n hlabels hw,
      reorderByIdx_eq_map w tc.ratemap n hrm hw⟩
  · cases tc with
    | mk rm occ bins ids labels =>
      simp only [TC.reorderUnitsByIdx] at *
      congr 1
      · exact reorder_roundtrip_list w winv n rm hrm hw hwi hinv
      · exact reorder_roundtrip_list w winv n ids hids hw hwi hinv
      · exact reorder_roundtrip_list w winv n labels hlabels hw hwi hinv

/-- Concrete three-unit curve for the C7 witness. -/
def exCurve7 : TC :=
  { ratemap := [[1, 2], [3, 4], [5, 6]], occupancy := [1, 1], bins := [0, 1/2, 1],
    unit_ids := [10, 20, 30], unit_labels := ["a", "b", "c"] }

/-- Witness for C7 with the permutation [2, 0, 1] and its inverse [1, 2, 0]. -/
theorem c7_reorder_units_roundtrip_witness :
    ((TC.reorderUnitsByIdx exCurve7 [2, 0, 1]).unit_ids =
        [2, 0, 1].map (fun k => exCurve7.unit_ids.getD k 0) ∧
      (TC.reorderUnitsByIdx exCurve7 [2, 0, 1]).unit_labels =
        [2, 0, 1].map (fun k => exCurve7.unit_labels.getD k "") ∧
      (TC.reorderUnitsByIdx exCurve7 [2, 0, 1]).ratemap =
        [2, 0, 1].map (fun k => exCurve7.ratemap.getD k [])) ∧
    TC.reorderUnitsByIdx (TC.reorderUnitsByIdx exCurve7 [2, 0, 1]) [1, 2, 0] =
      exCurve7 :=
  c7_reorder_units_roundtrip exCurve7 [2, 0, 1] [1, 2, 0] 3
    (by decide) (by decide) (by decide) (by decide) (by decide) (by decide)

end NelpyTC
